import Mathlib

/-!
# Verification of the SchemaSync schema engine

A shallow embedding, in Lean 4, of the pure core of the SchemaSync
cross-database schema comparison tool: the normalizer
(`normalizeSchemaModel`), the differ (`computeDiff` and the table
comparators), the DDL generators (`toPostgres` / `toMariaDB`), and the
PostgreSQL index-row parsing of the catalog loader.

Modelling conventions:
* JavaScript strings are Lean `String`s; the handful of string operations the
  source uses (`trim`, `toLowerCase`, `toUpperCase`, `split`, `includes`,
  `replace` of a single character, the two regexes of the index parser) are
  re-implemented over `String.data` so that they are easy to reason about and
  evaluate by kernel reduction.  Case folding follows Lean's ASCII
  `Char.toLower`/`Char.toUpper` (the identifiers involved are ASCII).
* `undefined` and `null` are both modelled by `Option.none` for fields where
  the source never distinguishes them (`generated`, `collation`, a primary
  key's `name`); the `default` of a column keeps the distinction
  (`none` = absent, `some none` = SQL `NULL`, `some (some e)` = expression),
  because the differ's documented equality treats them as equal explicitly.
* lodash `sortBy` is a stable sort by a string key; it is modelled by a
  structurally recursive insertion sort (`sortBy` below), which is total,
  stable and kernel-computable.
* A JavaScript `Map` built by repeated `set` keeps the first-insertion
  position of a key and overwrites its value; it is modelled as an
  association list built by `mapInsert`.
* The generators accumulate statements in an array called `lines` and join
  it with blank-line separators; the claims about emitted lines are stated
  over that statement list (`toPostgresLines` / `toMariaDBLines`), each
  element of which is one statement (destructive statements are single
  physical lines).
-/

namespace SchemaSync


/-! ## JavaScript string primitives -/

/-- JS `String.prototype.trim` on the character list: drop whitespace from
both ends. -/
def trimChars (l : List Char) : List Char :=
  ((l.dropWhile Char.isWhitespace).reverse.dropWhile Char.isWhitespace).reverse

/-- JS `trim` on strings. -/
def jsTrim (s : String) : String := ⟨trimChars s.data⟩

/-- JS `toLowerCase` (ASCII). -/
def jsToLower (s : String) : String := ⟨s.data.map Char.toLower⟩

/-- JS `toUpperCase` (ASCII). -/
def jsToUpper (s : String) : String := ⟨s.data.map Char.toUpper⟩

/-- Substring test (JS `String.prototype.includes`). -/
def containsSub (hay need : List Char) : Bool :=
  match hay with
  | [] => need.isEmpty
  | _ :: rest => need.isPrefixOf hay || containsSub rest need

/-- JS `String.prototype.split` on a single-character separator. -/
def splitOnChar (c : Char) : List Char → List (List Char)
  | [] => [[]]
  | x :: rest =>
    if x = c then [] :: splitOnChar c rest
    else
      match splitOnChar c rest with
      | h :: t => (x :: h) :: t
      | [] => [[x]]

/-- JS `replace(/X/g, "YY")` for one character replaced by a two-character
sequence (used by `quoteIdent` and `backtick`). -/
def replaceCharDouble (c : Char) (l : List Char) : List Char :=
  l.flatMap (fun x => if x = c then [c, c] else [x])

/-- Truthiness of an optional JS string (`undefined`, `null` and `""` are
falsy). -/
def optTruthy : Option String → Bool
  | some s => s ≠ ""
  | none => false

/-! ## lodash `sortBy`

lodash's `sortBy` is a stable sort of a collection by a string key.  It is
modelled by a structurally recursive insertion sort: an element is inserted
in front of the first position whose key is not strictly smaller, which
preserves the relative order of equal keys.  String keys are compared
lexicographically by character code (`lexLt`), matching JavaScript's `<` on
(ASCII) strings; the comparison is a plain structural recursion so that it
evaluates under kernel reduction. -/

/-- Strict lexicographic order on character lists, by character code. -/
def lexLt : List Char → List Char → Bool
  | _, [] => false
  | [], _ :: _ => true
  | x :: xs, y :: ys =>
    if x.toNat = y.toNat then lexLt xs ys else decide (x.toNat < y.toNat)

/-- JS `<` on strings. -/
def strLtb (a b : String) : Bool := lexLt a.data b.data

/-- `a ≤ b` as `¬ b < a`. -/
def strLeb (a b : String) : Bool := !(strLtb b a)

/-- Insert `x` before the first element whose key is not strictly below
`key x`. -/
def insertSorted (key : α → String) (x : α) : List α → List α
  | [] => [x]
  | y :: rest =>
    if strLtb (key y) (key x) then y :: insertSorted key x rest else x :: y :: rest

/-- Stable sort by a string key (model of lodash `sortBy`). -/
def sortBy (key : α → String) : List α → List α
  | [] => []
  | x :: rest => insertSorted key x (sortBy key rest)

/-- Sortedness by a key, as produced by `sortBy`. -/
def SortedBy (key : α → String) (l : List α) : Prop :=
  l.Pairwise (fun a b => strLeb (key a) (key b) = true)

/-! ## JavaScript `Map` model

`new Map()` with repeated `set` keeps a key at its first-insertion position
and overwrites the value; iteration follows that order. -/

/-- `Map.prototype.set` on an association list. -/
def mapInsert (k : String) (v : α) : List (String × α) → List (String × α)
  | [] => [(k, v)]
  | (k', v') :: rest =>
    if k' = k then (k', v) :: rest else (k', v') :: mapInsert k v rest

/-- Build a `Map` keyed by `keyFn` from a collection (later duplicates
overwrite the value, keeping the first position). -/
def buildMap (keyFn : α → String) (items : List α) : List (String × α) :=
  items.foldl (fun m i => mapInsert (keyFn i) i m) []

/-- `Map.prototype.has`. -/
def mapHas (m : List (String × α)) (k : String) : Bool :=
  m.any (fun p => p.1 = k)

/-- `Map.prototype.get` (`none` = `undefined`). -/
def mapGet : List (String × α) → String → Option α
  | [], _ => none
  | (k', v) :: rest, k => if k' = k then some v else mapGet rest k

/-! ## The Schema Model (src: `packages/core/src/types.ts`) -/

/-- `Column.generated` values. -/
inductive GenKind where
  | identity
  | sequence
  | auto_increment
deriving DecidableEq, Repr

/-- A column of a table.  `default` distinguishes an absent default (`none`)
from an explicit SQL `NULL` default (`some none`); for `generated` and
`collation` the source never distinguishes `undefined` from `null`
(it folds both with `?? null`), so both are `none`. -/
structure Column where
  name : String
  dataType : String
  length : Option Nat := none
  precisionScale : Option (Nat × Nat) := none
  nullable : Bool
  default : Option (Option String) := none
  generated : Option GenKind := none
  collation : Option String := none
deriving DecidableEq, Repr

/-- An index (`using` is the optional access method). -/
structure Index where
  name : String
  unique : Bool
  columns : List String
  «using» : Option String := none
deriving DecidableEq, Repr

structure ForeignKey where
  name : String
  columns : List String
  refTable : String
  refColumns : List String
  onUpdate : Option String := none
  onDelete : Option String := none
deriving DecidableEq, Repr

structure Check where
  name : String
  expression : String
deriving DecidableEq, Repr

/-- A table's primary key (`name ?? null` is folded to one `Option`). -/
structure PrimaryKey where
  name : Option String := none
  columns : List String
deriving DecidableEq, Repr

structure Table where
  name : String
  columns : List Column
  primaryKey : Option PrimaryKey := none
  indexes : List Index := []
  checks : List Check := []
  fks : List ForeignKey := []
deriving DecidableEq, Repr

structure View where
  name : String
  definition : String
deriving DecidableEq, Repr

inductive RoutineKind where
  | function
  | procedure
deriving DecidableEq, Repr

structure Routine where
  name : String
  kind : RoutineKind
  language : Option String := none
  definition : String
deriving DecidableEq, Repr

inductive TriggerTiming where
  | before
  | after
deriving DecidableEq, Repr

inductive TriggerEvent where
  | insert
  | update
  | delete
deriving DecidableEq, Repr

structure Trigger where
  name : String
  table : String
  timing : TriggerTiming
  events : List TriggerEvent
  definition : String
deriving DecidableEq, Repr

structure SchemaModel where
  tables : List Table
  views : List View
  routines : List Routine
  triggers : List Trigger
deriving DecidableEq, Repr

inductive NameCaseStrategy where
  | preserve
  | lower
  | upper
deriving DecidableEq, Repr

/-- `{strategy, ignore?}`; an absent ignore list behaves like `[]`. -/
structure NameCaseOptions where
  strategy : NameCaseStrategy
  ignore : List String := []
deriving DecidableEq, Repr

/-- Normalization options; `mapTypes` is the user-supplied synonym map,
modelled as an association list (objects have unique keys). -/
structure NormalizationOptions where
  nameCase : Option NameCaseOptions := none
  normalizeDefaults : Bool := false
  mapTypes : List (String × String) := []
deriving DecidableEq, Repr

/-! ## Normalizer (src: `packages/core/src/normalize.ts`) -/

/-- `DEFAULT_TYPE_MAPPINGS`. -/
def DEFAULT_TYPE_MAPPINGS : List (String × String) :=
  [("double precision", "double"),
   ("character varying", "varchar"),
   ("timestamp without time zone", "timestamp"),
   ("timestamp with time zone", "timestamptz"),
   ("integer", "int"),
   ("int4", "int"),
   ("int8", "bigint"),
   ("int2", "smallint"),
   ("tinyint(1)", "boolean"),
   ("bool", "boolean"),
   ("bit(1)", "boolean")]

/-- Association-list lookup with plain string equality (first match wins). -/
def alistLookup (k : String) : List (String × String) → Option String
  | [] => none
  | (k', v) :: rest => if k' = k then some v else alistLookup k rest

/-- `{...DEFAULT_TYPE_MAPPINGS, ...(options.mapTypes ?? {})}`: user entries
override the defaults, so they are consulted first. -/
def mapperList (opts : NormalizationOptions) : List (String × String) :=
  opts.mapTypes ++ DEFAULT_TYPE_MAPPINGS

/-- `normalizeName`. -/
def normalizeName (value : String) (opts : NormalizationOptions) : String :=
  match opts.nameCase with
  | none => value
  | some nameCase =>
    if value ∈ nameCase.ignore then value
    else
      match nameCase.strategy with
      | .lower => jsToLower value
      | .upper => jsToUpper value
      | .preserve => value

/-- The parenthesis-stripping loop of `normalizeDefault`, with explicit fuel
(the JS `while` loop strictly shrinks the string, so any fuel above the
initial length is enough; see `stripLoop_fuel_irrelevant`). -/
def stripLoop : Nat → List Char → List Char
  | 0, l => l
  | fuel + 1, l =>
    if l.head? = some '(' ∧ l.getLast? = some ')' then
      if trimChars ((l.drop 1).dropLast) = [] then l
      else stripLoop fuel (trimChars ((l.drop 1).dropLast))
    else l

/-- `normalizeDefault` on the three-valued default
(`none` = absent, `some none` = SQL `NULL`). -/
def normalizeDefault : Option (Option String) → Option (Option String)
  | none => none
  | some none => some none
  | some (some value) =>
    let trimmed := jsTrim value
    if trimmed = "" then some (some value)
    else
      let normalized : String := ⟨stripLoop (trimmed.data.length + 1) trimmed.data⟩
      some (some (if jsToLower normalized = "now()" then "CURRENT_TIMESTAMP" else normalized))

/-- `expression.replace(/\s+/g, ' ')`: collapse every whitespace run to a
single space (structurally recursive formulation). -/
def collapseWs : List Char → List Char
  | [] => []
  | [c] => if c.isWhitespace then [' '] else [c]
  | c :: d :: rest =>
    if c.isWhitespace then
      if d.isWhitespace then collapseWs (d :: rest)
      else ' ' :: collapseWs (d :: rest)
    else c :: collapseWs (d :: rest)

/-- `normalizeExpression` (shared by the normalizer and the check
comparator). -/
def normalizeExpression (expression : String) : String :=
  jsTrim ⟨collapseWs expression.data⟩

/-- `normalizeColumn`.  The mapper is the combined type-synonym map. -/
def normalizeColumn (mapper : List (String × String)) (opts : NormalizationOptions)
    (column : Column) : Column :=
  let lowered := jsToLower column.dataType
  { column with
    name := normalizeName column.name opts
    dataType := (alistLookup lowered mapper).getD lowered
    default := if opts.normalizeDefaults then normalizeDefault column.default else column.default
    generated := column.generated
    collation := column.collation }

/-- `normalizeTable`. -/
def normalizeTable (mapper : List (String × String)) (opts : NormalizationOptions)
    (table : Table) : Table :=
  { table with
    name := normalizeName table.name opts
    columns := table.columns.map (normalizeColumn mapper opts)
    primaryKey := table.primaryKey.map (fun pk =>
      { name := pk.name
        columns := pk.columns.map (fun col => normalizeName col opts) })
    indexes := table.indexes.map (fun index =>
      { index with
        name := normalizeName index.name opts
        columns := index.columns.map (fun col => normalizeName col opts)
        «using» := index.«using».map jsToLower })
    checks := table.checks.map (fun check =>
      { check with
        name := normalizeName check.name opts
        expression := normalizeExpression check.expression })
    fks := table.fks.map (fun fk =>
      { fk with
        name := normalizeName fk.name opts
        columns := fk.columns.map (fun col => normalizeName col opts)
        refTable := normalizeName fk.refTable opts
        refColumns := fk.refColumns.map (fun col => normalizeName col opts)
        onDelete := fk.onDelete.map jsToUpper
        onUpdate := fk.onUpdate.map jsToUpper }) }

/-- `normalizeSchemaModel` (the `cloneDeep` is the identity in a pure
model). -/
def normalizeSchemaModel (model : SchemaModel)
    (opts : NormalizationOptions := {}) : SchemaModel :=
  let mapper := mapperList opts
  { tables := model.tables.map (normalizeTable mapper opts)
    views := sortBy (fun v => jsToLower v.name) model.views
    routines := sortBy (fun r => jsToLower r.name) model.routines
    triggers := sortBy (fun t => jsToLower (t.table ++ "." ++ t.name)) model.triggers }

/-- The normalized form of a data type under a given mapper. -/
def normType (mapper : List (String × String)) (t : String) : String :=
  (alistLookup (jsToLower t) mapper).getD (jsToLower t)

/-- A mapper is *stable* when every type it produces is already in
normalized form (this holds for `DEFAULT_TYPE_MAPPINGS`, whose values are
lowercase and are not themselves keys). -/
def StableMapper (mapper : List (String × String)) : Prop :=
  ∀ p ∈ mapper, normType mapper p.2 = p.2

/-! ### Whitespace collapsing -/

/-- Well-formedness left behind by `collapseWs`: every whitespace character
is a plain space and no two adjacent characters are both whitespace. -/
def WsCollapsed (l : List Char) : Prop :=
  (∀ c ∈ l, c.isWhitespace → c = ' ') ∧
    l.Chain' (fun a b => ¬ (a.isWhitespace ∧ b.isWhitespace))

/-! ## Diff types (src: `packages/core/src/diff/types.ts`) -/

/-- A `{from, to}` pair recorded for an individual change. -/
structure FromTo (α : Type) where
  «from» : α
  «to» : α
deriving DecidableEq, Repr

structure ChangeEnvelope (C : Type) where
  name : String
  change : C
deriving DecidableEq, Repr

structure DefinitionChange where
  «from» : String
  «to» : String
deriving DecidableEq, Repr

structure ColumnChange where
  typeChanged : Option (FromTo String) := none
  nullableChanged : Option (FromTo Bool) := none
  defaultChanged : Option (FromTo (Option (Option String))) := none
  generatedChanged : Option (FromTo (Option GenKind)) := none
  collationChanged : Option (FromTo (Option String)) := none
deriving DecidableEq, Repr

structure PrimaryKeyChange where
  «from» : Option PrimaryKey := none
  «to» : Option PrimaryKey := none
deriving DecidableEq, Repr

structure TableChange where
  table : Table
  sourceTable : Table
  addedColumns : List Column
  removedColumns : List Column
  columnChanges : List (ChangeEnvelope ColumnChange)
  primaryKeyChange : Option PrimaryKeyChange := none
  addedIndexes : List Index
  removedIndexes : List Index
  indexChanges : List (ChangeEnvelope (FromTo Index))
  addedChecks : List Check
  removedChecks : List Check
  checkChanges : List (ChangeEnvelope (FromTo Check))
  addedForeignKeys : List ForeignKey
  removedForeignKeys : List ForeignKey
  foreignKeyChanges : List (ChangeEnvelope (FromTo ForeignKey))
deriving DecidableEq, Repr

structure TablesDiff where
  added : List Table
  removed : List Table
  changed : List TableChange
deriving DecidableEq, Repr

structure ObjectCollectionDiff (T : Type) where
  added : List T
  removed : List T
  changed : List (ChangeEnvelope DefinitionChange)
deriving DecidableEq, Repr

structure DiffResult where
  tables : TablesDiff
  views : ObjectCollectionDiff View
  routines : ObjectCollectionDiff Routine
  triggers : ObjectCollectionDiff Trigger
deriving DecidableEq, Repr

/-- Common result shape of the per-table comparators. -/
structure PartDiff (T C : Type) where
  added : List T
  removed : List T
  changed : List (ChangeEnvelope C)
deriving DecidableEq, Repr

/-! ## Table comparators (src: `packages/core/src/diff/tableComparators.ts`) -/

/-- `diffColumn`: one field per differing attribute; `none` when nothing
differs (`Object.keys(change).length === 0`).  The default comparison is on
`source.default ?? null` (absent and SQL `NULL` coincide); `generated` and
`collation` are already `?? null`-folded in the model. -/
def diffColumn (source target : Column) : Option ColumnChange :=
  let change : ColumnChange :=
    { typeChanged :=
        if source.dataType ≠ target.dataType then some ⟨source.dataType, target.dataType⟩
        else none
      nullableChanged :=
        if source.nullable ≠ target.nullable then some ⟨source.nullable, target.nullable⟩
        else none
      defaultChanged :=
        if source.default.getD none ≠ target.default.getD none then
          some ⟨source.default, target.default⟩
        else none
      generatedChanged :=
        if source.generated ≠ target.generated then some ⟨source.generated, target.generated⟩
        else none
      collationChanged :=
        if source.collation ≠ target.collation then some ⟨source.collation, target.collation⟩
        else none }
  if change.typeChanged.isSome ∨ change.nullableChanged.isSome ∨
      change.defaultChanged.isSome ∨ change.generatedChanged.isSome ∨
      change.collationChanged.isSome then
    some change
  else none

/-- `compareColumns`. -/
def compareColumns (source target : Table) : PartDiff Column ColumnChange :=
  let sourceMap := buildMap (fun c : Column => c.name) source.columns
  let targetMap := buildMap (fun c : Column => c.name) target.columns
  let added := target.columns.filter (fun c => ¬ mapHas sourceMap c.name)
  let removed := source.columns.filter (fun c => ¬ mapHas targetMap c.name)
  let changed := source.columns.filterMap (fun c =>
    match mapGet targetMap c.name with
    | none => none
    | some counterpart =>
      match diffColumn c counterpart with
      | none => none
      | some change => some (⟨c.name, change⟩ : ChangeEnvelope ColumnChange))
  { added := sortBy (fun c => c.name) added
    removed := sortBy (fun c => c.name) removed
    changed := sortBy (fun e => e.name) changed }

/-- `comparePrimaryKeys` (column lists compared as sorted sets). -/
def comparePrimaryKeys (source target : Option PrimaryKey) : Option PrimaryKeyChange :=
  match source, target with
  | none, none => none
  | none, some t => some { «to» := some t }
  | some s, none => some { «from» := some s }
  | some s, some t =>
    if sortBy (fun x => x) s.columns ≠ sortBy (fun x => x) t.columns then
      some { «from» := some s, «to» := some t }
    else none

/-- The record compared by `compareIndexes` (`using` lowercased with
absent ≡ null, columns as a sorted set of lowercased names). -/
def normalizeIndex (index : Index) : Bool × Option String × List String :=
  (index.unique, index.«using».map jsToLower,
    sortBy (fun x => x) (index.columns.map jsToLower))

/-- `compareIndexes`. -/
def compareIndexes (source target : List Index) : PartDiff Index (FromTo Index) :=
  let sourceMap := buildMap (fun i : Index => i.name) source
  let targetMap := buildMap (fun i : Index => i.name) target
  let added := target.filter (fun i => ¬ mapHas sourceMap i.name)
  let removed := source.filter (fun i => ¬ mapHas targetMap i.name)
  let changed := source.filterMap (fun i =>
    match mapGet targetMap i.name with
    | none => none
    | some targetIndex =>
      if normalizeIndex i ≠ normalizeIndex targetIndex then
        some (⟨i.name, ⟨i, targetIndex⟩⟩ : ChangeEnvelope (FromTo Index))
      else none)
  { added := sortBy (fun i => i.name) added
    removed := sortBy (fun i => i.name) removed
    changed := sortBy (fun e => e.name) changed }

/-- `compareChecks` (expression equality after whitespace collapse). -/
def compareChecks (source target : List Check) : PartDiff Check (FromTo Check) :=
  let sourceMap := buildMap (fun c : Check => c.name) source
  let targetMap := buildMap (fun c : Check => c.name) target
  let added := target.filter (fun c => ¬ mapHas sourceMap c.name)
  let removed := source.filter (fun c => ¬ mapHas targetMap c.name)
  let changed := source.filterMap (fun c =>
    match mapGet targetMap c.name with
    | none => none
    | some targetCheck =>
      if normalizeExpression c.expression ≠ normalizeExpression targetCheck.expression then
        some (⟨c.name, ⟨c, targetCheck⟩⟩ : ChangeEnvelope (FromTo Check))
      else none)
  { added := sortBy (fun c => c.name) added
    removed := sortBy (fun c => c.name) removed
    changed := sortBy (fun e => e.name) changed }

/-- The record compared by `compareForeignKeys`. -/
def normalizeForeignKey (fk : ForeignKey) :
    List String × String × List String × Option String × Option String :=
  (sortBy (fun x => x) (fk.columns.map jsToLower),
   jsToLower fk.refTable,
   sortBy (fun x => x) (fk.refColumns.map jsToLower),
   fk.onUpdate.map jsToUpper,
   fk.onDelete.map jsToUpper)

/-- `compareForeignKeys`. -/
def compareForeignKeys (source target : List ForeignKey) :
    PartDiff ForeignKey (FromTo ForeignKey) :=
  let sourceMap := buildMap (fun f : ForeignKey => f.name) source
  let targetMap := buildMap (fun f : ForeignKey => f.name) target
  let added := target.filter (fun f => ¬ mapHas sourceMap f.name)
  let removed := source.filter (fun f => ¬ mapHas targetMap f.name)
  let changed := source.filterMap (fun f =>
    match mapGet targetMap f.name with
    | none => none
    | some targetFk =>
      if normalizeForeignKey f ≠ normalizeForeignKey targetFk then
        some (⟨f.name, ⟨f, targetFk⟩⟩ : ChangeEnvelope (FromTo ForeignKey))
      else none)
  { added := sortBy (fun f => f.name) added
    removed := sortBy (fun f => f.name) removed
    changed := sortBy (fun e => e.name) changed }

/-! ## Differ (src: `packages/core/src/diff/index.ts`) -/

/-- `diffTable`. -/
def diffTable (source target : Table) : Option TableChange :=
  let cols := compareColumns source target
  let primaryKeyChange := comparePrimaryKeys source.primaryKey target.primaryKey
  let idx := compareIndexes source.indexes target.indexes
  let chk := compareChecks source.checks target.checks
  let fk := compareForeignKeys source.fks target.fks
  if cols.added ≠ [] ∨ cols.removed ≠ [] ∨ cols.changed ≠ [] ∨
      primaryKeyChange.isSome ∨
      idx.added ≠ [] ∨ idx.removed ≠ [] ∨ idx.changed ≠ [] ∨
      chk.added ≠ [] ∨ chk.removed ≠ [] ∨ chk.changed ≠ [] ∨
      fk.added ≠ [] ∨ fk.removed ≠ [] ∨ fk.changed ≠ [] then
    some
      { table := target
        sourceTable := source
        addedColumns := cols.added
        removedColumns := cols.removed
        columnChanges := cols.changed
        primaryKeyChange := primaryKeyChange
        addedIndexes := idx.added
        removedIndexes := idx.removed
        indexChanges := idx.changed
        addedChecks := chk.added
        removedChecks := chk.removed
        checkChanges := chk.changed
        addedForeignKeys := fk.added
        removedForeignKeys := fk.removed
        foreignKeyChanges := fk.changed }
  else none

/-- `diffTables` (`added` and `removed` keep the input iteration order;
only `changed` is sorted). -/
def diffTables (source target : List Table) : TablesDiff :=
  let targetMap := buildMap (fun t : Table => t.name) target
  { added := target.filter (fun t => ¬ source.any (fun s => s.name = t.name))
    removed := source.filter (fun t => ¬ target.any (fun s => s.name = t.name))
    changed := sortBy (fun c => c.table.name)
      (source.filterMap (fun t =>
        match mapGet targetMap t.name with
        | none => none
        | some counterpart => diffTable t counterpart)) }

/-- `diffCollection` (generic added/removed/changed over a keyed
collection; `changed` compares the rendered value strings). -/
def diffCollection (source target : List T) (keyFn : T → String)
    (valueFn : T → String) : ObjectCollectionDiff T :=
  let sourceMap := buildMap keyFn source
  let targetMap := buildMap keyFn target
  let added := (targetMap.filter (fun p => ¬ mapHas sourceMap p.1)).map Prod.snd
  let removed := (sourceMap.filter (fun p => ¬ mapHas targetMap p.1)).map Prod.snd
  let changed := sourceMap.filterMap (fun p =>
    match mapGet targetMap p.1 with
    | none => none
    | some targetValue =>
      if valueFn p.2 ≠ valueFn targetValue then
        some (⟨p.1, ⟨valueFn p.2, valueFn targetValue⟩⟩ : ChangeEnvelope DefinitionChange)
      else none)
  { added := sortBy keyFn added
    removed := sortBy keyFn removed
    changed := sortBy (fun e => e.name) changed }

def routineKindStr : RoutineKind → String
  | .function => "function"
  | .procedure => "procedure"

/-- Routine key `${item.kind}:${item.name}`. -/
def routineKey (r : Routine) : String := routineKindStr r.kind ++ ":" ++ r.name

/-- Trigger key `${item.table}.${item.name}`. -/
def triggerKey (t : Trigger) : String := t.table ++ "." ++ t.name

def timingStr : TriggerTiming → String
  | .before => "before"
  | .after => "after"

def eventStr : TriggerEvent → String
  | .insert => "insert"
  | .update => "update"
  | .delete => "delete"

/-- JS `Array.prototype.join`. -/
def joinStrings (sep : String) : List String → String
  | [] => ""
  | [x] => x
  | x :: y :: rest => x ++ sep ++ joinStrings sep (y :: rest)

/-- `item.events.join(',')`. -/
def joinEvents (events : List TriggerEvent) : String :=
  joinStrings "," (events.map eventStr)

/-- Trigger comparison value
`[item.timing, item.events.join(','), item.definition].join('\n')`. -/
def triggerValue (t : Trigger) : String :=
  joinStrings "\n" [timingStr t.timing, joinEvents t.events, t.definition]

/-- `computeDiff`. -/
def computeDiff (a b : SchemaModel) : DiffResult :=
  { tables := diffTables a.tables b.tables
    views := diffCollection a.views b.views (fun v => v.name) (fun v => v.definition)
    routines := diffCollection a.routines b.routines routineKey (fun r => r.definition)
    triggers := diffCollection a.triggers b.triggers triggerKey triggerValue }

/-! ## DDL generators (src: `packages/core/src/generate.ts`) -/

inductive Direction where
  | AtoB
  | BtoA
deriving DecidableEq, Repr

structure GenOptions where
  direction : Direction
  withTransaction : Bool := false
  safeMode : Bool := false
  ifExists : Bool := false
  cascade : Bool := false
deriving DecidableEq, Repr

/-- One entry of `TableChangePlan.alterColumns`. -/
structure AlterColumnEntry where
  column : Column
  change : List String
deriving DecidableEq, Repr

structure TableChangePlan where
  table : Table
  desired : Table
  addColumns : List Column
  dropColumns : List Column
  alterColumns : List AlterColumnEntry
  dropIndexes : List Index
  createIndexes : List Index
deriving DecidableEq, Repr

/-- `quoteIdent`: double-quote, doubling internal `"`. -/
def quoteIdent (identifier : String) : String :=
  "\"" ++ (⟨replaceCharDouble '"' identifier.data⟩ : String) ++ "\""

/-- `backtick`: backtick-quote, doubling internal backticks. -/
def backtick (identifier : String) : String :=
  "`" ++ (⟨replaceCharDouble '`' identifier.data⟩ : String) ++ "`"

inductive Dialect where
  | postgres
  | mariadb
deriving DecidableEq, Repr

def qname (dialect : Dialect) (name : String) : String :=
  match dialect with
  | .postgres => quoteIdent name
  | .mariadb => backtick name

/-- `renderPostgresColumn` (`parts[1]` is overwritten first by a truthy
`length`, then by `precisionScale`). -/
def renderPostgresColumn (column : Column) : String :=
  let typePart :=
    match column.precisionScale with
    | some ps => column.dataType ++ "(" ++ toString ps.1 ++ ", " ++ toString ps.2 ++ ")"
    | none =>
      match column.length with
      | some n => if n ≠ 0 then column.dataType ++ "(" ++ toString n ++ ")" else column.dataType
      | none => column.dataType
  let parts := [quoteIdent column.name, typePart]
    ++ (if column.nullable then [] else ["NOT NULL"])
    ++ (match column.default.getD none with
        | some d => ["DEFAULT " ++ d]
        | none => [])
    ++ (if column.generated = some .identity ∨ column.generated = some .sequence then
          ["-- TODO: ensure generation strategy is preserved"]
        else [])
    ++ (match column.collation with
        | some c => if c ≠ "" then ["COLLATE " ++ quoteIdent c] else []
        | none => [])
  String.intercalate " " parts

/-- `renderMariaColumn`. -/
def renderMariaColumn (column : Column) : String :=
  let upperType := jsToUpper column.dataType
  let typePart :=
    match column.precisionScale with
    | some ps => upperType ++ "(" ++ toString ps.1 ++ ", " ++ toString ps.2 ++ ")"
    | none =>
      match column.length with
      | some n => if n ≠ 0 then upperType ++ "(" ++ toString n ++ ")" else upperType
      | none => upperType
  let parts := [backtick column.name, typePart]
    ++ (if column.nullable then [] else ["NOT NULL"])
    ++ (match column.default.getD none with
        | some d => ["DEFAULT " ++ d]
        | none => [])
    ++ (if column.generated = some .auto_increment then ["AUTO_INCREMENT"] else [])
    ++ (match column.collation with
        | some c => if c ≠ "" then ["COLLATE " ++ c] else []
        | none => [])
  String.intercalate " " parts

/-- `renderPostgresCreateTable`. -/
def renderPostgresCreateTable (table : Table) : String :=
  let columns := table.columns.map renderPostgresColumn
    ++ (match table.primaryKey with
        | some pk =>
          ["CONSTRAINT " ++ quoteIdent (pk.name.getD (table.name ++ "_pkey")) ++
            " PRIMARY KEY (" ++ String.intercalate ", " (pk.columns.map quoteIdent) ++ ")"]
        | none => [])
  "CREATE TABLE " ++ quoteIdent table.name ++ " (\n  " ++
    String.intercalate ",\n  " columns ++ "\n);"

/-- `renderMariaCreateTable`. -/
def renderMariaCreateTable (table : Table) : String :=
  let columns := table.columns.map renderMariaColumn
    ++ (match table.primaryKey with
        | some pk =>
          ["CONSTRAINT " ++ backtick (pk.name.getD (table.name ++ "_pk")) ++
            " PRIMARY KEY (" ++ String.intercalate ", " (pk.columns.map backtick) ++ ")"]
        | none => [])
  "CREATE TABLE " ++ backtick table.name ++ " (\n  " ++
    String.intercalate ",\n  " columns ++ "\n) ENGINE=InnoDB;"

/-- `renderPostgresIndex`. -/
def renderPostgresIndex (tableName : String) (index : Index) : String :=
  "CREATE" ++ (if index.unique then " UNIQUE" else "") ++ " INDEX " ++
    quoteIdent index.name ++ " ON " ++ quoteIdent tableName ++
    (match index.«using» with
     | some u => if u ≠ "" then " USING " ++ u else ""
     | none => "") ++
    " (" ++ String.intercalate ", " (index.columns.map quoteIdent) ++ ");"

/-- `renderMariaIndex`. -/
def renderMariaIndex (tableName : String) (index : Index) : String :=
  "CREATE " ++ (if index.unique then "UNIQUE " else "") ++ "INDEX " ++
    backtick index.name ++ " ON " ++ backtick tableName ++
    " (" ++ String.intercalate ", " (index.columns.map backtick) ++ ");"

/-- Placeholder for the source's non-`null` assertion
`working.columns.find(...)!` in the unreachable fallback of
`buildTablePlan` (see C9). -/
def assertedColumn : Column := { name := "", dataType := "", nullable := true }

/-- `buildTablePlan`. -/
def buildTablePlan (change : TableChange) (direction : Direction) : TableChangePlan :=
  let desired := if direction = .AtoB then change.sourceTable else change.table
  let working := if direction = .AtoB then change.table else change.sourceTable
  let alterColumns := change.columnChanges.map (fun cc =>
    match (desired.columns.find? (fun col => col.name = cc.name)).orElse
        (fun _ => desired.columns.head?) with
    | none =>
      { column := (working.columns.find? (fun col => col.name = cc.name)).getD assertedColumn
        change := ["-- TODO: review column " ++ cc.name] }
    | some desiredColumn =>
      let statements :=
        (if cc.change.typeChanged.isSome then
          ["ALTER COLUMN " ++ quoteIdent cc.name ++ " TYPE " ++ desiredColumn.dataType,
           "-- TODO: verify casts for " ++ cc.name]
         else [])
        ++ (if cc.change.nullableChanged.isSome then
          ["ALTER COLUMN " ++ quoteIdent cc.name ++ " " ++
            (if desiredColumn.nullable then "DROP NOT NULL" else "SET NOT NULL")]
         else [])
        ++ (if cc.change.defaultChanged.isSome then
          [match desiredColumn.default.getD none with
           | none => "ALTER COLUMN " ++ quoteIdent cc.name ++ " DROP DEFAULT"
           | some d => "ALTER COLUMN " ++ quoteIdent cc.name ++ " SET DEFAULT " ++ d]
         else [])
        ++ (if cc.change.generatedChanged.isSome then
          ["-- TODO: reconcile generation strategy for " ++ cc.name]
         else [])
        ++ (if cc.change.collationChanged.isSome then
          ["-- TODO: adjust collation for " ++ cc.name]
         else [])
      ({ column := desiredColumn, change := statements } : AlterColumnEntry))
  { table := working
    desired := desired
    addColumns := if direction = .AtoB then change.removedColumns else change.addedColumns
    dropColumns := if direction = .AtoB then change.addedColumns else change.removedColumns
    alterColumns := alterColumns
    dropIndexes := if direction = .AtoB then change.addedIndexes else change.removedIndexes
    createIndexes := if direction = .AtoB then change.removedIndexes else change.addedIndexes }

structure PlanResult where
  toCreate : List Table
  toDrop : List Table
  tablePlans : List TableChangePlan
deriving DecidableEq, Repr

/-- `planTables`. -/
def planTables (diff : DiffResult) (opts : GenOptions) : PlanResult :=
  { toCreate := if opts.direction = .AtoB then diff.tables.removed else diff.tables.added
    toDrop := if opts.direction = .AtoB then diff.tables.added else diff.tables.removed
    tablePlans := diff.tables.changed.map (fun c => buildTablePlan c opts.direction) }

/-- `opts.safeMode ? `-- ${drop}` : drop`. -/
def safeLine (opts : GenOptions) (drop : String) : String :=
  if opts.safeMode then "-- " ++ drop else drop

def pgDropTableStmt (opts : GenOptions) (table : Table) : String :=
  "DROP TABLE" ++ (if opts.ifExists then " IF EXISTS" else "") ++ " " ++
    quoteIdent table.name ++ (if opts.cascade then " CASCADE" else "") ++ ";"

def mariaDropTableStmt (opts : GenOptions) (table : Table) : String :=
  "DROP TABLE" ++ (if opts.ifExists then " IF EXISTS" else "") ++ " " ++
    backtick table.name ++ (if opts.cascade then " CASCADE" else "") ++ ";"

/-- The per-changed-table statements of `toPostgres` (column drops, adds,
alters, index drops, index creates — in this order). -/
def pgPlanLines (opts : GenOptions) (plan : TableChangePlan) : List String :=
  let tableName := quoteIdent plan.table.name
  plan.dropColumns.map (fun column => safeLine opts
    ("ALTER TABLE " ++ tableName ++ " DROP COLUMN " ++ quoteIdent column.name ++
      (if opts.cascade then " CASCADE" else "") ++ ";"))
  ++ plan.addColumns.map (fun column =>
    "ALTER TABLE " ++ tableName ++ " ADD COLUMN " ++ renderPostgresColumn column ++ ";")
  ++ plan.alterColumns.flatMap (fun alteration =>
    alteration.change.map (fun ddl => "ALTER TABLE " ++ tableName ++ " " ++ ddl ++ ";"))
  ++ plan.dropIndexes.map (fun index => safeLine opts
    ("DROP INDEX" ++ (if opts.ifExists then " IF EXISTS" else "") ++ " " ++
      quoteIdent index.name ++ ";"))
  ++ plan.createIndexes.map (fun index => renderPostgresIndex plan.table.name index)

/-- The per-changed-table statements of `toMariaDB`. -/
def mariaPlanLines (opts : GenOptions) (plan : TableChangePlan) : List String :=
  let tableName := backtick plan.table.name
  plan.dropColumns.map (fun column => safeLine opts
    ("ALTER TABLE " ++ tableName ++ " DROP COLUMN " ++ backtick column.name ++ ";"))
  ++ plan.addColumns.map (fun column =>
    "ALTER TABLE " ++ tableName ++ " ADD COLUMN " ++ renderMariaColumn column ++ ";")
  ++ plan.alterColumns.flatMap (fun alteration =>
    alteration.change.map (fun ddl => "ALTER TABLE " ++ tableName ++ " " ++ ddl ++ ";"))
  ++ plan.dropIndexes.map (fun index => safeLine opts
    ("DROP INDEX " ++ backtick index.name ++ " ON " ++ tableName ++ ";"))
  ++ plan.createIndexes.map (fun index => renderMariaIndex plan.table.name index)

/-- `renderViewChanges`. -/
def renderViewLines (diff : DiffResult) (opts : GenOptions) (dialect : Dialect) : List String :=
  let createViews := if opts.direction = .AtoB then diff.views.removed else diff.views.added
  let dropViews := if opts.direction = .AtoB then diff.views.added else diff.views.removed
  dropViews.map (fun view => safeLine opts
    ("DROP VIEW" ++ (if opts.ifExists then " IF EXISTS" else "") ++ " " ++
      qname dialect view.name ++ (if opts.cascade then " CASCADE" else "") ++ ";"))
  ++ createViews.map (fun view =>
    "CREATE OR REPLACE VIEW " ++ qname dialect view.name ++ " AS\n" ++
      jsTrim view.definition ++ ";")
  ++ diff.views.changed.map (fun change =>
    "-- TODO: view " ++ change.name ++ " changed; consider drop and recreate.")

def routineKindUpper (k : RoutineKind) : String := jsToUpper (routineKindStr k)

/-- `renderRoutineChanges` (created routines emit a comment header and the
stored definition verbatim). -/
def renderRoutineLines (diff : DiffResult) (opts : GenOptions) (dialect : Dialect) :
    List String :=
  let createRoutines := if opts.direction = .AtoB then diff.routines.removed else diff.routines.added
  let dropRoutines := if opts.direction = .AtoB then diff.routines.added else diff.routines.removed
  dropRoutines.map (fun routine => safeLine opts
    ("DROP " ++ routineKindUpper routine.kind ++ (if opts.ifExists then " IF EXISTS" else "") ++
      " " ++ qname dialect routine.name ++ ";"))
  ++ createRoutines.flatMap (fun routine =>
    ["-- Routine " ++ routine.name, jsTrim routine.definition])
  ++ diff.routines.changed.map (fun change =>
    "-- TODO: routine " ++ change.name ++ " definition changed; drop and recreate manually.")

/-- `renderTriggerChanges`. -/
def renderTriggerLines (diff : DiffResult) (opts : GenOptions) (dialect : Dialect) :
    List String :=
  let createTriggers := if opts.direction = .AtoB then diff.triggers.removed else diff.triggers.added
  let dropTriggers := if opts.direction = .AtoB then diff.triggers.added else diff.triggers.removed
  dropTriggers.map (fun trigger => safeLine opts
    ("DROP TRIGGER" ++ (if opts.ifExists then " IF EXISTS" else "") ++ " " ++
      qname dialect trigger.name ++ " ON " ++ qname dialect trigger.table ++ ";"))
  ++ createTriggers.flatMap (fun trigger =>
    ["-- Trigger " ++ trigger.name ++ " on " ++ trigger.table, jsTrim trigger.definition])
  ++ diff.triggers.changed.map (fun change =>
    "-- TODO: trigger " ++ change.name ++ " changed; consider drop and recreate.")

def SAFE_BANNER : String := "-- SAFE MODE: review drops below before executing."

/-- The `lines` array accumulated by `toPostgres`, in push order (each
element is one emitted statement). -/
def toPostgresLines (diff : DiffResult) (opts : GenOptions) : List String :=
  let pt := planTables diff opts
  (if opts.withTransaction then ["BEGIN;"] else [])
  ++ (if opts.safeMode ∧ pt.toDrop ≠ [] then [SAFE_BANNER] else [])
  ++ pt.toDrop.map (fun table => safeLine opts (pgDropTableStmt opts table))
  ++ pt.toCreate.map renderPostgresCreateTable
  ++ pt.tablePlans.flatMap (pgPlanLines opts)
  ++ renderViewLines diff opts .postgres
  ++ renderRoutineLines diff opts .postgres
  ++ renderTriggerLines diff opts .postgres
  ++ (if opts.withTransaction then ["COMMIT;"] else [])

/-- The `lines` array accumulated by `toMariaDB`. -/
def toMariaDBLines (diff : DiffResult) (opts : GenOptions) : List String :=
  let pt := planTables diff opts
  (if opts.withTransaction then ["START TRANSACTION;"] else [])
  ++ (if opts.safeMode ∧ pt.toDrop ≠ [] then [SAFE_BANNER] else [])
  ++ pt.toDrop.map (fun table => safeLine opts (mariaDropTableStmt opts table))
  ++ pt.toCreate.map renderMariaCreateTable
  ++ pt.tablePlans.flatMap (mariaPlanLines opts)
  ++ renderViewLines diff opts .mariadb
  ++ renderRoutineLines diff opts .mariadb
  ++ renderTriggerLines diff opts .mariadb
  ++ (if opts.withTransaction then ["COMMIT;"] else [])

/-- `node:os` end-of-line, fixed to the Unix value in this model. -/
def EOL : String := "\n"

/-- `toPostgres`: the statements joined by one blank line, empty
statements dropped. -/
def toPostgres (diff : DiffResult) (opts : GenOptions) : String :=
  String.intercalate (EOL ++ EOL)
    ((toPostgresLines diff opts).filter (fun line => (jsTrim line).length > 0))

/-- `toMariaDB`. -/
def toMariaDB (diff : DiffResult) (opts : GenOptions) : String :=
  String.intercalate (EOL ++ EOL)
    ((toMariaDBLines diff opts).filter (fun line => (jsTrim line).length > 0))

/-! ## PostgreSQL index introspection
(src: `packages/core/src/discovery/postgres.ts`, `introspectTables`) -/

structure PgIndexRow where
  tablename : String
  indexname : String
  indexdef : String
deriving DecidableEq, Repr

/-- `\w` of JS regexes (ASCII). -/
def isWordChar (c : Char) : Bool := c.isAlphanum || c = '_'

/-- One attempted match of `/USING\s+(\w+)/i` at the current position:
`USING` case-insensitively, at least one whitespace, then the maximal
nonempty word run (the capture group). -/
def matchUsingAt (l : List Char) : Option (List Char) :=
  if (l.take 5).map Char.toLower = "using".data then
    match l.drop 5 with
    | [] => none
    | c :: rest =>
      if c.isWhitespace then
        let w := ((c :: rest).dropWhile Char.isWhitespace).takeWhile isWordChar
        if w = [] then none else some w
      else none
  else none

/-- `/USING\s+(\w+)/i.exec`: first position where the pattern matches. -/
def findUsingWord : List Char → Option (List Char)
  | [] => none
  | c :: rest =>
    match matchUsingAt (c :: rest) with
    | some w => some w
    | none => findUsingWord rest

/-- `indexdef.match(/\((.*)\)/)`: the content between the first `(` and the
last `)` after it.  (`.` does not match newlines; `pg_indexes.indexdef` is a
single line, so the model is stated for that case.) -/
def parenContent (l : List Char) : Option (List Char) :=
  let pre := l.takeWhile (fun c => c ≠ '(')
  if pre.length = l.length then none
  else
    let rest := l.drop (pre.length + 1)
    let tail := rest.reverse.takeWhile (fun c => c ≠ ')')
    if tail.length = rest.length then none
    else some ((rest.reverse.drop (tail.length + 1)).reverse)

/-- The `Index` assembled from one `pg_indexes` row: uniqueness from an
`indexdef.includes('UNIQUE')` test, access method from the `USING` regex,
columns from the parenthesized list (trimmed, quotes stripped). -/
def parseIndexRow (row : PgIndexRow) : Index :=
  { name := row.indexname
    unique := containsSub row.indexdef.data "UNIQUE".data
    «using» := (findUsingWord row.indexdef.data).map (fun w => (⟨w⟩ : String))
    columns :=
      match parenContent row.indexdef.data with
      | some inner =>
        (splitOnChar ',' inner).map
          (fun c => (⟨(trimChars c).filter (fun x => x ≠ '"')⟩ : String))
      | none => [] }

/-- The `pg_indexes` loop of `introspectTables`, restricted to one table:
every row whose `tablename` matches contributes one parsed index, in row
order.  The source pushes each matching row's index unconditionally — in
particular the index backing the table's primary key is *not* skipped. -/
def indexesFor (rows : List PgIndexRow) (tablename : String) : List Index :=
  (rows.filter (fun r => r.tablename = tablename)).map parseIndexRow

/-- A well-formed `indexdef` of the shape produced by PostgreSQL:
`CREATE [UNIQUE ]INDEX n ON t USING m (c1, c2, …)`. -/
def mkIndexDef (unique : Bool) (name tbl method : String) (cols : List String) : String :=
  "CREATE " ++ (if unique then "UNIQUE " else "") ++ "INDEX " ++ name ++ " ON " ++ tbl ++
    " USING " ++ method ++ " (" ++ joinStrings ", " cols ++ ")"

/-! ## Concrete fixtures used by witnesses and counterexamples -/

/-- A tiny model: one table, one nullable-flag difference against
`fixtureB`. -/
def fixtureA : SchemaModel :=
  { tables := [{ name := "t"
                 columns := [{ name := "c", dataType := "int", nullable := false }] }]
    views := [{ name := "v", definition := "SELECT 1;" }]
    routines := []
    triggers := [] }

def fixtureB : SchemaModel :=
  { tables := [{ name := "t"
                 columns := [{ name := "c", dataType := "int", nullable := true }] }]
    views := []
    routines := []
    triggers := [] }

/-- The single table change `computeDiff fixtureA fixtureB` produces. -/
def fixtureChange : TableChange :=
  { table := { name := "t", columns := [{ name := "c", dataType := "int", nullable := true }] }
    sourceTable := { name := "t", columns := [{ name := "c", dataType := "int", nullable := false }] }
    addedColumns := []
    removedColumns := []
    columnChanges := [⟨"c", { nullableChanged := some ⟨false, true⟩ }⟩]
    primaryKeyChange := none
    addedIndexes := []
    removedIndexes := []
    indexChanges := []
    addedChecks := []
    removedChecks := []
    checkChanges := []
    addedForeignKeys := []
    removedForeignKeys := []
    foreignKeyChanges := [] }

/-! ## Claim C3 — idempotence of normalization -/

/-- Counterexample options: the user map sends `varchar` to the
non-canonical token `TEXT`, which a second normalization pass lowercases. -/
def c3Opts : NormalizationOptions := { mapTypes := [("varchar", "TEXT")] }

def c3Model : SchemaModel :=
  { tables := [{ name := "t"
                 columns := [{ name := "c", dataType := "varchar", nullable := true }] }]
    views := []
    routines := []
    triggers := [] }

/-- Options exercising name folding and default normalization with the
built-in type map only. -/
def c3wOpts : NormalizationOptions :=
  { nameCase := some { strategy := .lower }
    normalizeDefaults := true }

def c3wModel : SchemaModel :=
  { tables := [{ name := "Users"
                 columns := [{ name := "Id", dataType := "INTEGER", nullable := false,
                               default := some (some "((now()))") }] }]
    views := [{ name := "B", definition := "x" }, { name := "A", definition := "y" }]
    routines := []
    triggers := [] }

/-- C5 counterexample: `tables.added` preserves the input order of the
target model and is not sorted by table name. -/
def c5Target : SchemaModel :=
  { tables := [{ name := "zeta", columns := [] }, { name := "alpha", columns := [] }]
    views := []
    routines := []
    triggers := [] }

def c5Empty : SchemaModel := { tables := [], views := [], routines := [], triggers := [] }

def c10a : SchemaModel :=
  { tables := [], views := [], routines := []
    triggers := [{ name := "trg", table := "t", timing := .before,
                   events := [.insert, .update], definition := "BODY" }] }

def c10b : SchemaModel :=
  { tables := [], views := [], routines := []
    triggers := [{ name := "trg", table := "t", timing := .before,
                   events := [.update, .insert], definition := "BODY" }] }

def c1Opts : GenOptions := { direction := .AtoB }

def c2Opts : GenOptions := { direction := .AtoB, safeMode := true }

def c2A : SchemaModel :=
  { tables := [], views := []
    routines := [{ name := "f", kind := .function, definition := "DROP TABLE x;" }]
    triggers := [] }

def c7B : SchemaModel :=
  { tables := [], views := [{ name := "v", definition := "SELECT 1" }]
    routines := [], triggers := [] }

def c8PkRow : PgIndexRow :=
  { tablename := "users", indexname := "users_pkey"
    indexdef := "CREATE UNIQUE INDEX users_pkey ON public.users USING btree (id)" }

/-! ## Theorems -/

/-! ## Basic lemmas about the string primitives -/

theorem trimChars_length_le (l : List Char) : (trimChars l).length ≤ l.length := by
  unfold trimChars
  simp only [List.length_reverse]
  calc ((l.dropWhile Char.isWhitespace).reverse.dropWhile Char.isWhitespace).length
      ≤ (l.dropWhile Char.isWhitespace).reverse.length :=
        (List.dropWhile_suffix _).length_le
    _ = (l.dropWhile Char.isWhitespace).length := List.length_reverse _
    _ ≤ l.length := (List.dropWhile_suffix _).length_le

theorem dropWhile_eq_self_of_head {p : Char → Bool} {l : List Char}
    (h : ∀ c, l.head? = some c → ¬ p c) : l.dropWhile p = l := by
  cases l with
  | nil => rfl
  | cons a rest =>
    have : ¬ p a := h a rfl
    simp [List.dropWhile_cons, this]

/-- The left-trimmed list starts with a non-whitespace character (or is empty). -/
theorem head_dropWhile_not {p : Char → Bool} (l : List Char) :
    ∀ c, (l.dropWhile p).head? = some c → ¬ p c := by
  intro c hc
  induction l with
  | nil => simp [List.dropWhile] at hc
  | cons a rest ih =>
    by_cases hpa : p a
    · rw [List.dropWhile_cons_of_pos hpa] at hc; exact ih hc
    · rw [List.dropWhile_cons_of_neg hpa] at hc
      simp at hc; subst hc; exact hpa

theorem dropWhile_idem (p : Char → Bool) (l : List Char) :
    (l.dropWhile p).dropWhile p = l.dropWhile p :=
  dropWhile_eq_self_of_head (head_dropWhile_not l)

/-- `trimChars` is idempotent. -/
theorem trimChars_idem (l : List Char) : trimChars (trimChars l) = trimChars l := by
  unfold trimChars
  set p := Char.isWhitespace
  set m := l.dropWhile p with hm
  -- the right-trim of `m` is a prefix of `m`, hence keeps `m`'s head property
  have hsuffix : m.reverse.dropWhile p <:+ m.reverse := List.dropWhile_suffix p
  have hprefixR : (m.reverse.dropWhile p).reverse <+: m := by
    have := hsuffix.reverse
    simpa using this
  have hL : ((m.reverse.dropWhile p).reverse).dropWhile p = (m.reverse.dropWhile p).reverse := by
    apply dropWhile_eq_self_of_head
    intro c hc
    rcases hprefixR with ⟨t, ht⟩
    have hcm : m.head? = some c := by
      cases h : (m.reverse.dropWhile p).reverse with
      | nil => rw [h] at hc; simp at hc
      | cons a r =>
        rw [h] at hc; simp at hc; subst hc
        rw [h] at ht
        rw [← ht]; rfl
    exact head_dropWhile_not l c (hm ▸ hcm)
  rw [hL]
  -- the remaining double right-trim collapses by `dropWhile_idem`
  rw [List.reverse_reverse, dropWhile_idem]

theorem jsTrim_idem (s : String) : jsTrim (jsTrim s) = jsTrim s := by
  unfold jsTrim
  exact congrArg String.mk (trimChars_idem s.data)

theorem char_toNat_ofNat_of_valid {n : Nat} (h : n.isValidChar) :
    (Char.ofNat n).toNat = n := by
  unfold Char.ofNat
  rw [dif_pos h]
  rfl

theorem Char_toLower_idem (c : Char) : Char.toLower (Char.toLower c) = Char.toLower c := by
  by_cases h : c.toNat ≥ 65 ∧ c.toNat ≤ 90
  · have h1 : Char.toLower c = Char.ofNat (c.toNat + 32) := by
      unfold Char.toLower
      rw [if_pos h]
    have hvalid : (c.toNat + 32).isValidChar := by
      left; omega
    have hval : (Char.ofNat (c.toNat + 32)).toNat = c.toNat + 32 :=
      char_toNat_ofNat_of_valid hvalid
    rw [h1]
    unfold Char.toLower
    rw [hval, if_neg (by omega)]
  · have h1 : Char.toLower c = c := by
      unfold Char.toLower
      rw [if_neg h]
    rw [h1, h1]

theorem Char_toUpper_idem (c : Char) : Char.toUpper (Char.toUpper c) = Char.toUpper c := by
  by_cases h : c.toNat ≥ 97 ∧ c.toNat ≤ 122
  · have h1 : Char.toUpper c = Char.ofNat (c.toNat - 32) := by
      unfold Char.toUpper
      rw [if_pos h]
    have hvalid : (c.toNat - 32).isValidChar := by
      left; omega
    have hval : (Char.ofNat (c.toNat - 32)).toNat = c.toNat - 32 :=
      char_toNat_ofNat_of_valid hvalid
    rw [h1]
    unfold Char.toUpper
    rw [hval, if_neg (by omega)]
  · have h1 : Char.toUpper c = c := by
      unfold Char.toUpper
      rw [if_neg h]
    rw [h1, h1]

theorem jsToLower_idem (s : String) : jsToLower (jsToLower s) = jsToLower s := by
  unfold jsToLower
  simp [List.map_map, Function.comp_def, Char_toLower_idem]

theorem jsToUpper_idem (s : String) : jsToUpper (jsToUpper s) = jsToUpper s := by
  unfold jsToUpper
  simp [List.map_map, Function.comp_def, Char_toUpper_idem]

theorem lexLt_asymm : ∀ a b : List Char, lexLt a b = true → lexLt b a = false := by
  intro a
  induction a with
  | nil =>
    intro b h
    cases b with
    | nil => decide
    | cons y ys => rfl
  | cons x xs ih =>
    intro b h
    cases b with
    | nil =>
      rw [show lexLt (x :: xs) [] = false from rfl] at h
      simp at h
    | cons y ys =>
      unfold lexLt at h ⊢
      by_cases hxy : x.toNat = y.toNat
      · rw [if_pos hxy] at h
        rw [if_pos hxy.symm]
        exact ih ys h
      · rw [if_neg hxy] at h
        rw [if_neg (fun hyx => hxy hyx.symm)]
        simp at h ⊢
        omega

/-- The chain property behind transitivity of `strLeb`. -/
theorem lexLt_chain :
    ∀ a b c : List Char, lexLt c b = false → lexLt b a = false → lexLt c a = false := by
  intro a
  induction a with
  | nil =>
    intro b c h1 h2
    cases c with
    | nil => decide
    | cons z zs => rfl
  | cons x xs ih =>
    intro b c h1 h2
    cases c with
    | nil =>
      cases b with
      | nil =>
        rw [show lexLt ([] : List Char) (x :: xs) = true from rfl] at h2
        simp at h2
      | cons y ys =>
        rw [show lexLt ([] : List Char) (y :: ys) = true from rfl] at h1
        simp at h1
    | cons z zs =>
      cases b with
      | nil =>
        rw [show lexLt ([] : List Char) (x :: xs) = true from rfl] at h2
        simp at h2
      | cons y ys =>
        unfold lexLt at h1 h2 ⊢
        by_cases hzy : z.toNat = y.toNat
        · rw [if_pos hzy] at h1
          by_cases hyx : y.toNat = x.toNat
          · rw [if_pos hyx] at h2
            rw [if_pos (hzy.trans hyx)]
            exact ih ys zs h1 h2
          · rw [if_neg hyx] at h2
            simp at h2
            rw [if_neg (show ¬ z.toNat = x.toNat by omega)]
            simp
            omega
        · rw [if_neg hzy] at h1
          simp at h1
          by_cases hyx : y.toNat = x.toNat
          · rw [if_neg (show ¬ z.toNat = x.toNat by omega)]
            simp
            omega
          · rw [if_neg hyx] at h2
            simp at h2
            rw [if_neg (show ¬ z.toNat = x.toNat by omega)]
            simp
            omega

theorem strLeb_of_strLtb {a b : String} (h : strLtb a b = true) : strLeb a b = true := by
  unfold strLtb at h
  unfold strLeb strLtb
  rw [lexLt_asymm _ _ h]
  rfl

theorem strLeb_of_not_strLtb {a b : String} (h : ¬ strLtb b a = true) : strLeb a b = true := by
  have h2 : strLtb b a = false := by
    cases hval : strLtb b a with
    | false => rfl
    | true => exact absurd hval h
  unfold strLeb
  rw [h2]
  rfl

theorem strLeb_trans {a b c : String} (h1 : strLeb a b = true) (h2 : strLeb b c = true) :
    strLeb a c = true := by
  unfold strLeb strLtb at h1 h2 ⊢
  simp only [Bool.not_eq_true'] at h1 h2 ⊢
  exact lexLt_chain _ _ _ h2 h1

theorem insertSorted_perm (key : α → String) (x : α) (l : List α) :
    List.Perm (insertSorted key x l) (x :: l) := by
  induction l with
  | nil => rfl
  | cons y rest ih =>
    unfold insertSorted
    by_cases h : strLtb (key y) (key x) = true
    · rw [if_pos h]
      exact (ih.cons y).trans (List.Perm.swap x y rest)
    · rw [if_neg h]

theorem sortBy_perm (key : α → String) (l : List α) : List.Perm (sortBy key l) l := by
  induction l with
  | nil => rfl
  | cons x rest ih =>
    unfold sortBy
    exact (insertSorted_perm key x (sortBy key rest)).trans (ih.cons x)

theorem mem_sortBy (key : α → String) (l : List α) (a : α) :
    a ∈ sortBy key l ↔ a ∈ l :=
  (sortBy_perm key l).mem_iff

theorem insertSorted_pairwise (key : α → String) (x : α) (l : List α)
    (h : SortedBy key l) : SortedBy key (insertSorted key x l) := by
  induction l with
  | nil => simp [insertSorted, SortedBy]
  | cons y rest ih =>
    unfold insertSorted
    rcases List.pairwise_cons.mp h with ⟨hy, hrest⟩
    by_cases hlt : strLtb (key y) (key x) = true
    · rw [if_pos hlt]
      refine List.pairwise_cons.mpr ⟨?_, ih hrest⟩
      intro b hb
      rcases List.mem_cons.mp ((insertSorted_perm key x rest).mem_iff.mp hb) with hbx | hbr
      · rw [hbx]; exact strLeb_of_strLtb hlt
      · exact hy b hbr
    · rw [if_neg hlt]
      refine List.pairwise_cons.mpr ⟨?_, h⟩
      intro b hb
      rcases List.mem_cons.mp hb with hby | hbr
      · rw [hby]; exact strLeb_of_not_strLtb hlt
      · exact strLeb_trans (strLeb_of_not_strLtb hlt) (hy b hbr)

/-- The output of `sortBy` is sorted (weakly) by its key. -/
theorem sortBy_pairwise (key : α → String) (l : List α) : SortedBy key (sortBy key l) := by
  induction l with
  | nil => simp [sortBy, SortedBy]
  | cons x rest ih =>
    unfold sortBy
    exact insertSorted_pairwise key x (sortBy key rest) ih

theorem insertSorted_of_forall_le (key : α → String) (x : α) (l : List α)
    (h : ∀ b ∈ l, strLeb (key x) (key b) = true) : insertSorted key x l = x :: l := by
  cases l with
  | nil => rfl
  | cons y rest =>
    unfold insertSorted
    have hle := h y (List.mem_cons_self y rest)
    unfold strLeb at hle
    simp only [Bool.not_eq_true'] at hle
    rw [if_neg (by simp [hle])]

/-- Sorting an already sorted list leaves it unchanged, hence `sortBy` is
idempotent. -/
theorem sortBy_of_pairwise (key : α → String) (l : List α)
    (h : SortedBy key l) : sortBy key l = l := by
  induction l with
  | nil => rfl
  | cons x rest ih =>
    rcases List.pairwise_cons.mp h with ⟨hx, hrest⟩
    unfold sortBy
    rw [ih hrest]
    exact insertSorted_of_forall_le key x rest hx

theorem sortBy_idem (key : α → String) (l : List α) :
    sortBy key (sortBy key l) = sortBy key l :=
  sortBy_of_pairwise key _ (sortBy_pairwise key l)

/-! ## Lemmas about the normalizer's building blocks -/

theorem normalizeName_idem (v : String) (opts : NormalizationOptions) :
    normalizeName (normalizeName v opts) opts = normalizeName v opts := by
  cases hnc : opts.nameCase with
  | none => simp [normalizeName, hnc]
  | some nameCase =>
    by_cases hv : v ∈ nameCase.ignore
    · simp [normalizeName, hnc, hv]
    · cases hs : nameCase.strategy with
      | preserve => simp [normalizeName, hnc, hs, hv]
      | lower =>
        by_cases h2 : jsToLower v ∈ nameCase.ignore
        · simp [normalizeName, hnc, hs, hv, h2]
        · simp [normalizeName, hnc, hs, hv, h2, jsToLower_idem]
      | upper =>
        by_cases h2 : jsToUpper v ∈ nameCase.ignore
        · simp [normalizeName, hnc, hs, hv, h2]
        · simp [normalizeName, hnc, hs, hv, h2, jsToUpper_idem]

theorem alistLookup_mem {k v : String} :
    ∀ {l : List (String × String)}, alistLookup k l = some v → (k, v) ∈ l := by
  intro l
  induction l with
  | nil => intro h; simp [alistLookup] at h
  | cons p rest ih =>
    intro h
    unfold alistLookup at h
    by_cases hk : p.1 = k
    · rw [if_pos hk] at h
      have hpv : p = (k, v) := by
        cases p with
        | mk a b =>
          simp only [Option.some.injEq] at h
          simp only at hk
          rw [hk, h]
      rw [← hpv]
      exact List.mem_cons_self p rest
    · rw [if_neg hk] at h
      exact List.mem_cons_of_mem p (ih h)

theorem normType_idem {mapper : List (String × String)} (h : StableMapper mapper)
    (t : String) : normType mapper (normType mapper t) = normType mapper t := by
  unfold normType
  cases hl : alistLookup (jsToLower t) mapper with
  | some v =>
    simp only [Option.getD_some]
    exact h _ (alistLookup_mem hl)
  | none =>
    simp only [Option.getD_none]
    rw [jsToLower_idem, hl]
    rfl

/-! ### The parenthesis-stripping loop -/

theorem stripLoop_ne_nil (fuel : Nat) (l : List Char) (h : l ≠ []) :
    stripLoop fuel l ≠ [] := by
  induction fuel generalizing l with
  | zero => exact h
  | succ fuel ih =>
    unfold stripLoop
    by_cases hg : l.head? = some '(' ∧ l.getLast? = some ')'
    · rw [if_pos hg]
      by_cases hinner : trimChars ((l.drop 1).dropLast) = []
      · rw [if_pos hinner]; exact h
      · rw [if_neg hinner]; exact ih _ hinner
    · rw [if_neg hg]; exact h

/-- If the loop guard holds, the list has at least two characters. -/
theorem guard_length_ge_two {l : List Char}
    (hg : l.head? = some '(' ∧ l.getLast? = some ')') : 2 ≤ l.length := by
  rcases hg with ⟨hh, hl⟩
  match l with
  | [] => simp at hh
  | [c] =>
    simp at hh hl
    rw [hh] at hl
    simp at hl
  | a :: b :: rest => simp

theorem stripLoop_fuel_irrelevant :
    ∀ (f₁ f₂ : Nat) (l : List Char), l.length < f₁ → l.length < f₂ →
      stripLoop f₁ l = stripLoop f₂ l := by
  intro f₁
  induction f₁ with
  | zero => intro f₂ l h1; omega
  | succ f₁ ih =>
    intro f₂ l h1 h2
    cases f₂ with
    | zero => omega
    | succ f₂ =>
      unfold stripLoop
      by_cases hg : l.head? = some '(' ∧ l.getLast? = some ')'
      · rw [if_pos hg, if_pos hg]
        by_cases hinner : trimChars ((l.drop 1).dropLast) = []
        · rw [if_pos hinner, if_pos hinner]
        · rw [if_neg hinner, if_neg hinner]
          have hlen2 := guard_length_ge_two hg
          have hlen : (trimChars ((l.drop 1).dropLast)).length ≤ l.length - 2 := by
            calc (trimChars ((l.drop 1).dropLast)).length
                ≤ ((l.drop 1).dropLast).length := trimChars_length_le _
              _ = l.length - 2 := by simp only [List.length_dropLast, List.length_drop]; omega
          exact ih f₂ _ (by omega) (by omega)
      · rw [if_neg hg, if_neg hg]

/-- The result of a fully-fuelled strip loop is a fixed point of the loop. -/
theorem stripLoop_result_fix :
    ∀ (fuel : Nat) (l : List Char), l.length < fuel →
      ∀ g, stripLoop g (stripLoop fuel l) = stripLoop fuel l := by
  intro fuel
  induction fuel with
  | zero => intro l h; omega
  | succ fuel ih =>
    intro l hlen g
    by_cases hg : l.head? = some '(' ∧ l.getLast? = some ')'
    · by_cases hinner : trimChars ((l.drop 1).dropLast) = []
      · -- the loop breaks: `l` itself is a fixed point
        have hres : stripLoop (fuel + 1) l = l := by
          unfold stripLoop
          rw [if_pos hg, if_pos hinner]
        rw [hres]
        cases g with
        | zero => rfl
        | succ g =>
          unfold stripLoop
          rw [if_pos hg, if_pos hinner]
      · have hres : stripLoop (fuel + 1) l = stripLoop fuel (trimChars ((l.drop 1).dropLast)) := by
          conv_lhs => unfold stripLoop
          rw [if_pos hg, if_neg hinner]
        rw [hres]
        have hlen2 := guard_length_ge_two hg
        have hlen3 : (trimChars ((l.drop 1).dropLast)).length ≤ l.length - 2 := by
          calc (trimChars ((l.drop 1).dropLast)).length
              ≤ ((l.drop 1).dropLast).length := trimChars_length_le _
            _ = l.length - 2 := by simp only [List.length_dropLast, List.length_drop]; omega
        exact ih _ (by omega) g
    · -- the guard fails: `l` is a fixed point
      have hres : stripLoop (fuel + 1) l = l := by
        unfold stripLoop
        rw [if_neg hg]
      rw [hres]
      cases g with
      | zero => rfl
      | succ g =>
        unfold stripLoop
        rw [if_neg hg]

/-- The strip loop preserves trimmedness. -/
theorem stripLoop_trimmed :
    ∀ (fuel : Nat) (l : List Char), trimChars l = l →
      trimChars (stripLoop fuel l) = stripLoop fuel l := by
  intro fuel
  induction fuel with
  | zero => intro l h; exact h
  | succ fuel ih =>
    intro l hl
    unfold stripLoop
    by_cases hg : l.head? = some '(' ∧ l.getLast? = some ')'
    · rw [if_pos hg]
      by_cases hinner : trimChars ((l.drop 1).dropLast) = []
      · rw [if_pos hinner]; exact hl
      · rw [if_neg hinner]
        exact ih _ (trimChars_idem _)
    · rw [if_neg hg]; exact hl

/-- `normalizeDefault` is idempotent. -/
theorem normalizeDefault_idem (d : Option (Option String)) :
    normalizeDefault (normalizeDefault d) = normalizeDefault d := by
  match d with
  | none => rfl
  | some none => rfl
  | some (some value) =>
    by_cases htrim : jsTrim value = ""
    · have h1 : normalizeDefault (some (some value)) = some (some value) := by
        show (if jsTrim value = "" then some (some value) else _) = some (some value)
        rw [if_pos htrim]
      rw [h1, h1]
    · obtain ⟨S, hS⟩ : ∃ S : String,
          S = ⟨stripLoop ((jsTrim value).data.length + 1) (jsTrim value).data⟩ := ⟨_, rfl⟩
      have h1 : normalizeDefault (some (some value)) =
          some (some (if jsToLower (⟨stripLoop ((jsTrim value).data.length + 1)
              (jsTrim value).data⟩ : String) = "now()" then "CURRENT_TIMESTAMP"
            else (⟨stripLoop ((jsTrim value).data.length + 1) (jsTrim value).data⟩ : String))) := by
        show (if jsTrim value = "" then some (some value) else _) = _
        rw [if_neg htrim]
      rw [h1, ← hS]
      have hSfix : trimChars S.data = S.data := by
        rw [hS]
        exact stripLoop_trimmed _ _ (trimChars_idem value.data)
      have hSne : S ≠ "" := by
        rw [hS]
        intro hcon
        exact stripLoop_ne_nil _ _
          (fun h0 => htrim (String.ext h0))
          (congrArg String.data hcon)
      have hSloop : ∀ g, stripLoop g S.data = S.data := by
        intro g
        rw [hS]
        exact stripLoop_result_fix _ _ (Nat.lt_succ_self _) g
      by_cases hnow : jsToLower S = "now()"
      · rw [if_pos hnow]
        show normalizeDefault (some (some "CURRENT_TIMESTAMP")) = some (some "CURRENT_TIMESTAMP")
        decide
      · rw [if_neg hnow]
        -- second pass on the already stripped string `S`
        have h2 : jsTrim S = S := String.ext hSfix
        have h3 : jsTrim S ≠ "" := by rw [h2]; exact hSne
        have hstep : normalizeDefault (some (some S)) =
            some (some (if jsToLower (⟨stripLoop ((jsTrim S).data.length + 1)
                (jsTrim S).data⟩ : String) = "now()" then "CURRENT_TIMESTAMP"
              else (⟨stripLoop ((jsTrim S).data.length + 1) (jsTrim S).data⟩ : String))) := by
          show (if jsTrim S = "" then some (some S) else _) = _
          rw [if_neg h3]
        rw [hstep, h2]
        have h4 : (⟨stripLoop (S.data.length + 1) S.data⟩ : String) = S :=
          String.ext (hSloop _)
        rw [h4, if_neg hnow]

theorem collapseWs_head_of_not_ws {d : Char} {rest : List Char}
    (hd : ¬ d.isWhitespace) : (collapseWs (d :: rest)).head? = some d := by
  cases rest with
  | nil => simp [collapseWs, hd]
  | cons e r =>
    unfold collapseWs
    rw [if_neg hd]
    rfl

theorem collapseWs_wsCollapsed : ∀ l : List Char, WsCollapsed (collapseWs l) := by
  intro l
  induction l using collapseWs.induct with
  | case1 => exact ⟨by simp [collapseWs], by simp [collapseWs]⟩
  | case2 c hc =>
    refine ⟨?_, ?_⟩
    · intro x hx
      simp [collapseWs, hc] at hx
      simp [hx]
    · simp [collapseWs, hc]
  | case3 c hc =>
    refine ⟨?_, ?_⟩
    · intro x hx
      simp [collapseWs, hc] at hx
      subst hx
      intro hx
      exact absurd hx hc
    · simp [collapseWs, hc]
  | case4 c d rest hc hd ih =>
    -- both `c` and `d` whitespace: `c` is dropped
    unfold collapseWs
    rw [if_pos hc, if_pos hd]
    exact ih
  | case5 c d rest hc hd ih =>
    -- `c` whitespace, `d` not: emit a single space
    unfold collapseWs
    rw [if_pos hc, if_neg hd]
    rcases ih with ⟨ihmem, ihchain⟩
    refine ⟨?_, ?_⟩
    · intro x hx
      rcases List.mem_cons.mp hx with hx | hx
      · intro _; exact hx
      · exact ihmem x hx
    · refine List.chain'_cons'.mpr ⟨?_, ihchain⟩
      intro y hy
      rw [collapseWs_head_of_not_ws hd] at hy
      simp at hy
      subst hy
      intro hcon
      exact hd hcon.2
  | case6 c d rest hc ih =>
    -- `c` not whitespace
    unfold collapseWs
    rw [if_neg hc]
    rcases ih with ⟨ihmem, ihchain⟩
    refine ⟨?_, ?_⟩
    · intro x hx
      rcases List.mem_cons.mp hx with hx | hx
      · subst hx; intro hcon; exact absurd hcon hc
      · exact ihmem x hx
    · refine List.chain'_cons'.mpr ⟨?_, ihchain⟩
      intro y hy
      intro hcon
      exact hc hcon.1

theorem collapseWs_of_wsCollapsed : ∀ l : List Char, WsCollapsed l → collapseWs l = l := by
  intro l
  induction l using collapseWs.induct with
  | case1 => intro _; rfl
  | case2 c hc =>
    intro ⟨hmem, _⟩
    have hc' := hmem c (by simp) hc
    subst hc'
    simp [collapseWs]
  | case3 c hc =>
    intro _
    simp [collapseWs, hc]
  | case4 c d rest hc hd ih =>
    intro ⟨hmem, hchain⟩
    exact absurd ⟨hc, hd⟩ (List.chain'_cons.mp hchain).1
  | case5 c d rest hc hd ih =>
    intro ⟨hmem, hchain⟩
    have hc' : c = ' ' := hmem c (by simp) hc
    unfold collapseWs
    rw [if_pos hc, if_neg hd]
    rw [ih ⟨fun x hx => hmem x (List.mem_cons_of_mem c hx), (List.chain'_cons.mp hchain).2⟩]
    rw [hc']
  | case6 c d rest hc ih =>
    intro ⟨hmem, hchain⟩
    unfold collapseWs
    rw [if_neg hc]
    rw [ih ⟨fun x hx => hmem x (List.mem_cons_of_mem c hx), (List.chain'_cons.mp hchain).2⟩]

/-- `trimChars` (a contiguous fragment of the list) preserves
`WsCollapsed`. -/
theorem wsCollapsed_trimChars {l : List Char} (h : WsCollapsed l) :
    WsCollapsed (trimChars l) := by
  rcases h with ⟨hmem, hchain⟩
  have hsub : List.Sublist (trimChars l) l := by
    unfold trimChars
    have h1 : List.Sublist (l.dropWhile Char.isWhitespace) l :=
      (List.dropWhile_suffix _).sublist
    have h2 : List.Sublist ((l.dropWhile Char.isWhitespace).reverse.dropWhile Char.isWhitespace)
        (l.dropWhile Char.isWhitespace).reverse := (List.dropWhile_suffix _).sublist
    have h3 := h2.reverse
    rw [List.reverse_reverse] at h3
    exact h3.trans h1
  refine ⟨fun c hc => hmem c (hsub.mem hc), ?_⟩
  -- the chain condition survives taking suffixes and reverses
  unfold trimChars
  set p := Char.isWhitespace
  have step1 : (l.dropWhile p).Chain' (fun a b => ¬ (a.isWhitespace ∧ b.isWhitespace)) := by
    rcases List.dropWhile_suffix (l := l) p with ⟨t, ht⟩
    rw [← ht] at hchain
    exact (List.chain'_append.mp hchain).2.1
  have step2 : ((l.dropWhile p).reverse).Chain' (fun a b => ¬ (a.isWhitespace ∧ b.isWhitespace)) := by
    rw [List.chain'_reverse]
    exact step1.imp (fun _ _ h => fun hcon => h ⟨hcon.2, hcon.1⟩)
  have step3 : ((l.dropWhile p).reverse.dropWhile p).Chain'
      (fun a b => ¬ (a.isWhitespace ∧ b.isWhitespace)) := by
    rcases List.dropWhile_suffix (l := (l.dropWhile p).reverse) p with ⟨t, ht⟩
    rw [← ht] at step2
    exact (List.chain'_append.mp step2).2.1
  rw [List.chain'_reverse]
  exact step3.imp (fun _ _ h => fun hcon => h ⟨hcon.2, hcon.1⟩)

/-- `normalizeExpression` is idempotent. -/
theorem normalizeExpression_idem (e : String) :
    normalizeExpression (normalizeExpression e) = normalizeExpression e := by
  unfold normalizeExpression jsTrim
  apply congrArg String.mk
  have h1 : collapseWs (trimChars (collapseWs e.data)) = trimChars (collapseWs e.data) :=
    collapseWs_of_wsCollapsed _ (wsCollapsed_trimChars (collapseWs_wsCollapsed e.data))
  rw [h1, trimChars_idem]

/-! ### Idempotence of the normalizer -/

theorem normalizeColumn_idem {mapper : List (String × String)} (h : StableMapper mapper)
    (opts : NormalizationOptions) (c : Column) :
    normalizeColumn mapper opts (normalizeColumn mapper opts c) =
      normalizeColumn mapper opts c := by
  cases c with
  | mk name dataType length precisionScale nullable defaultVal generated collation =>
    unfold normalizeColumn
    simp only [Column.mk.injEq, and_true, true_and]
    refine ⟨normalizeName_idem _ _, ?_, ?_⟩
    · exact normType_idem h dataType
    · by_cases hnd : opts.normalizeDefaults
      · simp only [hnd, if_true, normalizeDefault_idem]
      · simp [hnd]

theorem normalizeTable_idem {mapper : List (String × String)} (h : StableMapper mapper)
    (opts : NormalizationOptions) (t : Table) :
    normalizeTable mapper opts (normalizeTable mapper opts t) =
      normalizeTable mapper opts t := by
  cases t with
  | mk name columns primaryKey indexes checks fks =>
    unfold normalizeTable
    simp only [Table.mk.injEq, and_true, true_and]
    refine ⟨normalizeName_idem _ _, ?_, ?_, ?_, ?_, ?_⟩
    · rw [List.map_map]
      exact List.map_congr_left (fun c _ => normalizeColumn_idem h opts c)
    · cases primaryKey with
      | none => rfl
      | some pk =>
        simp only [Option.map_some', Option.some.injEq, PrimaryKey.mk.injEq, and_true, true_and]
        rw [List.map_map]
        exact List.map_congr_left (fun col _ => normalizeName_idem _ _)
    · rw [List.map_map]
      refine List.map_congr_left (fun idx _ => ?_)
      simp only [Function.comp_apply, Index.mk.injEq, and_true, true_and]
      refine ⟨normalizeName_idem _ _, ?_, ?_⟩
      · rw [List.map_map]
        exact List.map_congr_left (fun col _ => normalizeName_idem _ _)
      · cases idx.«using» with
        | none => rfl
        | some u => simp [jsToLower_idem]
    · rw [List.map_map]
      refine List.map_congr_left (fun chk _ => ?_)
      simp only [Function.comp_apply, Check.mk.injEq, and_true, true_and]
      exact ⟨normalizeName_idem _ _, normalizeExpression_idem _⟩
    · rw [List.map_map]
      refine List.map_congr_left (fun fk _ => ?_)
      simp only [Function.comp_apply, ForeignKey.mk.injEq, and_true, true_and]
      refine ⟨normalizeName_idem _ _, ?_, normalizeName_idem _ _, ?_, ?_, ?_⟩
      · rw [List.map_map]
        exact List.map_congr_left (fun col _ => normalizeName_idem _ _)
      · rw [List.map_map]
        exact List.map_congr_left (fun col _ => normalizeName_idem _ _)
      · cases fk.onUpdate with
        | none => rfl
        | some u => simp [jsToUpper_idem]
      · cases fk.onDelete with
        | none => rfl
        | some u => simp [jsToUpper_idem]

/-- Idempotence of `normalizeSchemaModel`, for every options value whose
combined type-synonym map is stable (see `StableMapper`). -/
theorem normalizeSchemaModel_idem (m : SchemaModel) (opts : NormalizationOptions)
    (h : StableMapper (mapperList opts)) :
    normalizeSchemaModel (normalizeSchemaModel m opts) opts =
      normalizeSchemaModel m opts := by
  unfold normalizeSchemaModel
  simp only [SchemaModel.mk.injEq, and_true, true_and]
  refine ⟨?_, sortBy_idem _ _, sortBy_idem _ _, sortBy_idem _ _⟩
  rw [List.map_map]
  exact List.map_congr_left (fun t _ => normalizeTable_idem h opts t)

/-! ## Claim C6 — column equality in the differ -/

/-- C6: `diffColumn` reports no change exactly when `dataType`, `nullable`,
`default` (with absent and SQL `NULL` defaults coinciding via `?? null`),
`generated` and `collation` all agree; `length` and `precisionScale` do not
enter the comparison, so two columns differing only in them compare
equal. -/
theorem C6_diffColumn_equality (s t : Column) :
    diffColumn s t = none ↔
      (s.dataType = t.dataType ∧ s.nullable = t.nullable ∧
        s.default.getD none = t.default.getD none ∧
        s.generated = t.generated ∧ s.collation = t.collation) := by
  by_cases h1 : s.dataType = t.dataType <;>
    by_cases h2 : s.nullable = t.nullable <;>
      by_cases h3 : s.default.getD none = t.default.getD none <;>
        by_cases h4 : s.generated = t.generated <;>
          by_cases h5 : s.collation = t.collation <;>
            simp [diffColumn, h1, h2, h3, h4, h5]

/-! ## Claim C4 — direction symmetry of `computeDiff` -/

theorem diffTables_added_swap (a b : List Table) :
    (diffTables a b).added = (diffTables b a).removed := rfl

theorem diffCollection_added_swap {T : Type} (a b : List T) (keyFn : T → String)
    (valueFn : T → String) :
    (diffCollection a b keyFn valueFn).added = (diffCollection b a keyFn valueFn).removed := rfl

/-- C4: for every pair of models and each of the four buckets, the key set
of `computeDiff a b`'s `added` equals the key set of `computeDiff b a`'s
`removed`, and conversely.  (In fact the lists coincide.) -/
theorem C4_direction_symmetry (a b : SchemaModel) :
    (∀ k, k ∈ ((computeDiff a b).tables.added.map Table.name) ↔
          k ∈ ((computeDiff b a).tables.removed.map Table.name)) ∧
    (∀ k, k ∈ ((computeDiff a b).tables.removed.map Table.name) ↔
          k ∈ ((computeDiff b a).tables.added.map Table.name)) ∧
    (∀ k, k ∈ ((computeDiff a b).views.added.map View.name) ↔
          k ∈ ((computeDiff b a).views.removed.map View.name)) ∧
    (∀ k, k ∈ ((computeDiff a b).views.removed.map View.name) ↔
          k ∈ ((computeDiff b a).views.added.map View.name)) ∧
    (∀ k, k ∈ ((computeDiff a b).routines.added.map routineKey) ↔
          k ∈ ((computeDiff b a).routines.removed.map routineKey)) ∧
    (∀ k, k ∈ ((computeDiff a b).routines.removed.map routineKey) ↔
          k ∈ ((computeDiff b a).routines.added.map routineKey)) ∧
    (∀ k, k ∈ ((computeDiff a b).triggers.added.map triggerKey) ↔
          k ∈ ((computeDiff b a).triggers.removed.map triggerKey)) ∧
    (∀ k, k ∈ ((computeDiff a b).triggers.removed.map triggerKey) ↔
          k ∈ ((computeDiff b a).triggers.added.map triggerKey)) := by
  refine ⟨?_, ?_, ?_, ?_, ?_, ?_, ?_, ?_⟩ <;>
    intro k <;>
    first
      | rw [show (computeDiff a b).tables.added = (computeDiff b a).tables.removed from rfl]
      | rw [show (computeDiff a b).tables.removed = (computeDiff b a).tables.added from rfl]
      | rw [show (computeDiff a b).views.added = (computeDiff b a).views.removed from rfl]
      | rw [show (computeDiff a b).views.removed = (computeDiff b a).views.added from rfl]
      | rw [show (computeDiff a b).routines.added = (computeDiff b a).routines.removed from rfl]
      | rw [show (computeDiff a b).routines.removed = (computeDiff b a).routines.added from rfl]
      | rw [show (computeDiff a b).triggers.added = (computeDiff b a).triggers.removed from rfl]
      | rw [show (computeDiff a b).triggers.removed = (computeDiff b a).triggers.added from rfl]

/-- C3 counterexample: with `mapTypes = {varchar: "TEXT"}`, the first
normalization maps the column type to `TEXT` and the second maps it to
`text`, so `normalize (normalize m) ≠ normalize m`. -/
theorem C3_counterexample :
    normalizeSchemaModel (normalizeSchemaModel c3Model c3Opts) c3Opts ≠
      normalizeSchemaModel c3Model c3Opts := by
  decide

/-- C3 (amended): `normalizeSchemaModel` is idempotent for every options
value whose combined type map (user `mapTypes` over the built-in defaults)
is *stable*, i.e. maps every produced type token to itself when normalized
again; the default mapping (no `mapTypes`) is stable.  The iterative
default stripping, `now()` replacement and case folding are idempotent
unconditionally. -/
theorem C3_normalize_idempotent (m : SchemaModel) (opts : NormalizationOptions)
    (h : StableMapper (mapperList opts)) :
    normalizeSchemaModel (normalizeSchemaModel m opts) opts =
      normalizeSchemaModel m opts :=
  normalizeSchemaModel_idem m opts h

theorem C3_witness :
    StableMapper (mapperList c3wOpts) ∧
      normalizeSchemaModel (normalizeSchemaModel c3wModel c3wOpts) c3wOpts =
        normalizeSchemaModel c3wModel c3wOpts :=
  ⟨by unfold StableMapper; decide, C3_normalize_idempotent c3wModel c3wOpts (by unfold StableMapper; decide)⟩

/-! ## Claim C5 — sortedness of the Diff Result -/

theorem mem_tables_changed {a b : SchemaModel} {tc : TableChange}
    (h : tc ∈ (computeDiff a b).tables.changed) : ∃ s t, diffTable s t = some tc := by
  have h2 : tc ∈ sortBy (fun c : TableChange => c.table.name)
      (a.tables.filterMap (fun t =>
        match mapGet (buildMap (fun t : Table => t.name) b.tables) t.name with
        | none => none
        | some counterpart => diffTable t counterpart)) := h
  rw [mem_sortBy] at h2
  rcases List.mem_filterMap.mp h2 with ⟨s, _, hs⟩
  cases hmg : mapGet (buildMap (fun t : Table => t.name) b.tables) s.name with
  | none => rw [hmg] at hs; simp at hs
  | some counterpart =>
    rw [hmg] at hs
    exact ⟨s, counterpart, hs⟩

theorem diffTable_fields_sorted {s t : Table} {tc : TableChange}
    (h : diffTable s t = some tc) :
    SortedBy Column.name tc.addedColumns ∧
    SortedBy Column.name tc.removedColumns ∧
    SortedBy ChangeEnvelope.name tc.columnChanges ∧
    SortedBy Index.name tc.addedIndexes ∧
    SortedBy Index.name tc.removedIndexes ∧
    SortedBy ChangeEnvelope.name tc.indexChanges ∧
    SortedBy Check.name tc.addedChecks ∧
    SortedBy Check.name tc.removedChecks ∧
    SortedBy ChangeEnvelope.name tc.checkChanges ∧
    SortedBy ForeignKey.name tc.addedForeignKeys ∧
    SortedBy ForeignKey.name tc.removedForeignKeys ∧
    SortedBy ChangeEnvelope.name tc.foreignKeyChanges := by
  unfold diffTable at h
  dsimp only at h
  split at h
  · injection h with h
    subst h
    exact ⟨sortBy_pairwise _ _, sortBy_pairwise _ _, sortBy_pairwise _ _,
      sortBy_pairwise _ _, sortBy_pairwise _ _, sortBy_pairwise _ _,
      sortBy_pairwise _ _, sortBy_pairwise _ _, sortBy_pairwise _ _,
      sortBy_pairwise _ _, sortBy_pairwise _ _, sortBy_pairwise _ _⟩
  · exact absurd h (by simp)

/-- C5 counterexample: with an empty source and target tables named
`zeta`, `alpha` (in that order), `computeDiff` returns
`tables.added = [zeta, alpha]`, which is not sorted by name. -/
theorem C5_counterexample :
    ¬ SortedBy Table.name (computeDiff c5Empty c5Target).tables.added := by
  unfold SortedBy
  decide

/-- C5 (amended): every `added`, `removed` and `changed` list of the
`views`, `routines` and `triggers` buckets is sorted by its key,
`tables.changed` is sorted by table name, and within each table change all
twelve nested lists are sorted by name — but `tables.added` and
`tables.removed` are *not* sorted; they preserve the input collection
order (see the counterexample). -/
theorem C5_sorted_except_table_sets (a b : SchemaModel) :
    SortedBy View.name (computeDiff a b).views.added ∧
    SortedBy View.name (computeDiff a b).views.removed ∧
    SortedBy ChangeEnvelope.name (computeDiff a b).views.changed ∧
    SortedBy routineKey (computeDiff a b).routines.added ∧
    SortedBy routineKey (computeDiff a b).routines.removed ∧
    SortedBy ChangeEnvelope.name (computeDiff a b).routines.changed ∧
    SortedBy triggerKey (computeDiff a b).triggers.added ∧
    SortedBy triggerKey (computeDiff a b).triggers.removed ∧
    SortedBy ChangeEnvelope.name (computeDiff a b).triggers.changed ∧
    SortedBy (fun tc : TableChange => tc.table.name) (computeDiff a b).tables.changed ∧
    (∀ tc ∈ (computeDiff a b).tables.changed,
      SortedBy Column.name tc.addedColumns ∧
      SortedBy Column.name tc.removedColumns ∧
      SortedBy ChangeEnvelope.name tc.columnChanges ∧
      SortedBy Index.name tc.addedIndexes ∧
      SortedBy Index.name tc.removedIndexes ∧
      SortedBy ChangeEnvelope.name tc.indexChanges ∧
      SortedBy Check.name tc.addedChecks ∧
      SortedBy Check.name tc.removedChecks ∧
      SortedBy ChangeEnvelope.name tc.checkChanges ∧
      SortedBy ForeignKey.name tc.addedForeignKeys ∧
      SortedBy ForeignKey.name tc.removedForeignKeys ∧
      SortedBy ChangeEnvelope.name tc.foreignKeyChanges) := by
  refine ⟨sortBy_pairwise _ _, sortBy_pairwise _ _, sortBy_pairwise _ _,
    sortBy_pairwise _ _, sortBy_pairwise _ _, sortBy_pairwise _ _,
    sortBy_pairwise _ _, sortBy_pairwise _ _, sortBy_pairwise _ _,
    sortBy_pairwise _ _, ?_⟩
  intro tc htc
  rcases mem_tables_changed htc with ⟨s, t, hst⟩
  exact diffTable_fields_sorted hst

theorem C5_witness :
    fixtureChange ∈ (computeDiff fixtureA fixtureB).tables.changed ∧
      SortedBy ChangeEnvelope.name fixtureChange.columnChanges :=
  ⟨by decide,
    (((C5_sorted_except_table_sets fixtureA fixtureB).2.2.2.2.2.2.2.2.2.2)
      fixtureChange (by decide)).2.2.1⟩

/-! ## Map lemmas shared by C9 and C10 -/

theorem mem_mapInsert {p : String × α} {k : String} {v : α} :
    ∀ {m : List (String × α)}, p ∈ mapInsert k v m → p = (k, v) ∨ p ∈ m := by
  intro m
  induction m with
  | nil => intro h; simpa [mapInsert] using h
  | cons q rest ih =>
    intro h
    unfold mapInsert at h
    by_cases hk : q.1 = k
    · rw [if_pos hk] at h
      rcases List.mem_cons.mp h with h | h
      · left; rw [h, hk]
      · right; exact List.mem_cons_of_mem q h
    · rw [if_neg hk] at h
      rcases List.mem_cons.mp h with h | h
      · right; rw [h]; exact List.mem_cons_self q rest
      · rcases ih h with h | h
        · left; exact h
        · right; exact List.mem_cons_of_mem q h

theorem mem_buildMap {keyFn : α → String} {l : List α} {p : String × α}
    (h : p ∈ buildMap keyFn l) : p.2 ∈ l ∧ keyFn p.2 = p.1 := by
  suffices haux : ∀ (l' : List α) (acc : List (String × α)),
      (∀ q ∈ acc, q.2 ∈ l ∧ keyFn q.2 = q.1) → (∀ x ∈ l', x ∈ l) →
      ∀ q ∈ l'.foldl (fun m i => mapInsert (keyFn i) i m) acc, q.2 ∈ l ∧ keyFn q.2 = q.1 by
    exact haux l [] (by intro q hq; simp at hq) (fun x hx => hx) p h
  intro l'
  induction l' with
  | nil => intro acc hacc _ q hq; exact hacc q hq
  | cons x rest ih =>
    intro acc hacc hsub q hq
    refine ih (mapInsert (keyFn x) x acc) ?_ (fun y hy => hsub y (List.mem_cons_of_mem x hy)) q hq
    intro r hr
    rcases mem_mapInsert hr with hr | hr
    · rw [hr]
      exact ⟨hsub x (List.mem_cons_self x rest), rfl⟩
    · exact hacc r hr

theorem mapGet_some_mem {m : List (String × α)} {k : String} {v : α}
    (h : mapGet m k = some v) : ∃ p ∈ m, p.1 = k ∧ p.2 = v := by
  induction m with
  | nil => simp [mapGet] at h
  | cons q rest ih =>
    cases q with
    | mk qk qv =>
      unfold mapGet at h
      by_cases hk : qk = k
      · rw [if_pos hk] at h
        simp only [Option.some.injEq] at h
        exact ⟨(qk, qv), List.mem_cons_self _ _, hk, h⟩
      · rw [if_neg hk] at h
        rcases ih h with ⟨p, hp, hpk, hpv⟩
        exact ⟨p, List.mem_cons_of_mem _ hp, hpk, hpv⟩

theorem mapGet_mapInsert (k k' : String) (v' : α) (m : List (String × α)) :
    mapGet (mapInsert k' v' m) k = if k' = k then some v' else mapGet m k := by
  induction m with
  | nil =>
    show mapGet [(k', v')] k = _
    unfold mapGet
    by_cases hk : k' = k
    · rw [if_pos hk, if_pos hk]
    · rw [if_neg hk, if_neg hk]
      rfl
  | cons q rest ih =>
    cases q with
    | mk qk qv =>
      unfold mapInsert
      by_cases hq : qk = k'
      · rw [if_pos hq]
        unfold mapGet
        by_cases hqk : qk = k
        · rw [if_pos hqk, if_pos hqk, if_pos (hq ▸ hqk)]
        · rw [if_neg hqk, if_neg hqk, if_neg (hq ▸ hqk)]
      · rw [if_neg hq]
        unfold mapGet
        by_cases hqk : qk = k
        · rw [if_pos hqk, if_pos hqk]
          rw [if_neg (fun h => hq (hqk.trans h.symm))]
        · rw [if_neg hqk, if_neg hqk]
          exact ih

/-- `Map.get` returns the value of the *last* collection item with the
requested key (later `set`s overwrite). -/
theorem mapGet_buildMap (keyFn : α → String) (l : List α) (k : String) :
    mapGet (buildMap keyFn l) k = (l.filter (fun x => keyFn x = k)).getLast? := by
  suffices haux : ∀ (l' : List α) (acc : List (String × α)),
      mapGet (l'.foldl (fun m i => mapInsert (keyFn i) i m) acc) k =
        ((l'.filter (fun x => keyFn x = k)).getLast?).or (mapGet acc k) by
    unfold buildMap
    rw [haux l []]
    simp [mapGet]
  intro l'
  induction l' with
  | nil => intro acc; simp
  | cons x rest ih =>
    intro acc
    show mapGet (rest.foldl (fun m i => mapInsert (keyFn i) i m) (mapInsert (keyFn x) x acc)) k = _
    rw [ih, mapGet_mapInsert]
    by_cases hx : keyFn x = k
    · rw [if_pos hx]
      have hfilter : (x :: rest).filter (fun y => keyFn y = k) =
          x :: rest.filter (fun y => keyFn y = k) := by
        simp [List.filter_cons, hx]
      rw [hfilter]
      cases hrest : rest.filter (fun y => keyFn y = k) with
      | nil => simp
      | cons r rs =>
        obtain ⟨v, hv⟩ : ∃ v, (r :: rs).getLast? = some v := by
          cases hg : (r :: rs).getLast? with
          | none => simp at hg
          | some v => exact ⟨v, rfl⟩
        rw [List.getLast?_cons_cons, hv]
        rfl
    · rw [if_neg hx]
      have hfilter : (x :: rest).filter (fun y => keyFn y = k) =
          rest.filter (fun y => keyFn y = k) := by
        simp [List.filter_cons, hx]
      rw [hfilter]

theorem buildMap_keys_nodup (keyFn : α → String) (l : List α) :
    (buildMap keyFn l).Pairwise (fun p q => p.1 ≠ q.1) := by
  suffices hins : ∀ (k : String) (v : α) (m : List (String × α)),
      m.Pairwise (fun p q => p.1 ≠ q.1) →
      (mapInsert k v m).Pairwise (fun p q => p.1 ≠ q.1) by
    suffices haux : ∀ (l' : List α) (acc : List (String × α)),
        acc.Pairwise (fun p q => p.1 ≠ q.1) →
        (l'.foldl (fun m i => mapInsert (keyFn i) i m) acc).Pairwise (fun p q => p.1 ≠ q.1) by
      exact haux l [] (by simp)
    intro l'
    induction l' with
    | nil => intro acc hacc; exact hacc
    | cons x rest ih => intro acc hacc; exact ih _ (hins _ _ _ hacc)
  intro k v m
  induction m with
  | nil => intro _; simp [mapInsert]
  | cons q rest ih =>
    intro h
    rcases List.pairwise_cons.mp h with ⟨hq, hrest⟩
    unfold mapInsert
    by_cases hk : q.1 = k
    · rw [if_pos hk]
      exact List.pairwise_cons.mpr ⟨hq, hrest⟩
    · rw [if_neg hk]
      refine List.pairwise_cons.mpr ⟨?_, ih hrest⟩
      intro r hr
      rcases mem_mapInsert hr with hr | hr
      · rw [hr]; exact hk
      · exact hq r hr

theorem mapGet_of_mem_nodup {m : List (String × α)} {p : String × α}
    (hnd : m.Pairwise (fun p q => p.1 ≠ q.1)) (hp : p ∈ m) :
    mapGet m p.1 = some p.2 := by
  induction m with
  | nil => simp at hp
  | cons q rest ih =>
    rcases List.pairwise_cons.mp hnd with ⟨hq, hrest⟩
    rcases List.mem_cons.mp hp with hp | hp
    · rw [hp]
      unfold mapGet
      simp [List.find?_cons]
    · have hne : ¬ q.1 = p.1 := hq p hp
      unfold mapGet
      simp only [List.find?_cons, hne, decide_eq_true_eq, if_neg]
      exact ih hrest hp

/-! ## Claim C9 — column changes name columns present on both sides -/

theorem diffTable_some_fields {s t : Table} {tc : TableChange}
    (h : diffTable s t = some tc) :
    tc.table = t ∧ tc.sourceTable = s ∧ tc.columnChanges = (compareColumns s t).changed := by
  unfold diffTable at h
  dsimp only at h
  split at h
  · injection h with h
    subst h
    exact ⟨rfl, rfl, rfl⟩
  · exact absurd h (by simp)

theorem compareColumns_changed_mem {s t : Table} {cc : ChangeEnvelope ColumnChange}
    (h : cc ∈ (compareColumns s t).changed) :
    cc.name ∈ s.columns.map Column.name ∧ cc.name ∈ t.columns.map Column.name := by
  have h2 : cc ∈ sortBy (fun e : ChangeEnvelope ColumnChange => e.name)
      (s.columns.filterMap (fun c =>
        match mapGet (buildMap (fun c : Column => c.name) t.columns) c.name with
        | none => none
        | some counterpart =>
          match diffColumn c counterpart with
          | none => none
          | some change => some (⟨c.name, change⟩ : ChangeEnvelope ColumnChange))) := h
  rw [mem_sortBy] at h2
  rcases List.mem_filterMap.mp h2 with ⟨col, hcol, hf⟩
  cases hmg : mapGet (buildMap (fun c : Column => c.name) t.columns) col.name with
  | none => rw [hmg] at hf; simp at hf
  | some counterpart =>
    rw [hmg] at hf
    dsimp only at hf
    cases hdc : diffColumn col counterpart with
    | none => rw [hdc] at hf; simp at hf
    | some change =>
      rw [hdc] at hf
      dsimp only at hf
      simp only [Option.some.injEq] at hf
      have hname : cc.name = col.name := by rw [← hf]
      rcases mapGet_some_mem hmg with ⟨p, hp, hpk, hpv⟩
      rcases mem_buildMap hp with ⟨hpmem, hpkey⟩
      constructor
      · rw [hname]
        exact List.mem_map.mpr ⟨col, hcol, rfl⟩
      · rw [hname, ← hpk, ← hpkey]
        exact List.mem_map.mpr ⟨p.2, hpmem, rfl⟩

/-- C9: every name in a changed table's `columnChanges` names a column
present in both the source-side and target-side column lists, so the
`desired.columns.find(...)` lookup in `buildTablePlan` succeeds for either
direction and its two fallback branches (the `?? desired.columns[0]`
substitution and the `-- TODO: review column` TODO) are unreachable. -/
theorem C9_columnChanges_resolve (a b : SchemaModel) :
    ∀ tc ∈ (computeDiff a b).tables.changed, ∀ cc ∈ tc.columnChanges,
      cc.name ∈ tc.sourceTable.columns.map Column.name ∧
      cc.name ∈ tc.table.columns.map Column.name ∧
      ∀ d : Direction,
        ((if d = .AtoB then tc.sourceTable else tc.table).columns.find?
          (fun col => col.name = cc.name)).isSome = true := by
  intro tc htc cc hcc
  rcases mem_tables_changed htc with ⟨s, t, hst⟩
  rcases diffTable_some_fields hst with ⟨htab, hsrc, hch⟩
  rw [hch] at hcc
  rcases compareColumns_changed_mem hcc with ⟨hsmem, htmem⟩
  rw [← hsrc] at hsmem
  rw [← htab] at htmem
  refine ⟨hsmem, htmem, ?_⟩
  intro d
  rw [List.find?_isSome]
  cases d with
  | AtoB =>
    simp only [if_pos rfl]
    rcases List.mem_map.mp hsmem with ⟨col, hcol, hname⟩
    exact ⟨col, hcol, by simp [hname]⟩
  | BtoA =>
    rw [if_neg (by simp)]
    rcases List.mem_map.mp htmem with ⟨col, hcol, hname⟩
    exact ⟨col, hcol, by simp [hname]⟩

theorem C9_witness :
    fixtureChange ∈ (computeDiff fixtureA fixtureB).tables.changed ∧
    (⟨"c", { nullableChanged := some ⟨false, true⟩ }⟩ : ChangeEnvelope ColumnChange) ∈
      fixtureChange.columnChanges ∧
    ((if Direction.AtoB = Direction.AtoB then fixtureChange.sourceTable
        else fixtureChange.table).columns.find?
      (fun col => col.name = (⟨"c", { nullableChanged := some ⟨false, true⟩ }⟩ :
        ChangeEnvelope ColumnChange).name)).isSome = true :=
  ⟨by decide, by decide,
    (C9_columnChanges_resolve fixtureA fixtureB fixtureChange (by decide) _ (by decide)).2.2
      Direction.AtoB⟩

/-! ## Claim C10 — trigger change detection is order-sensitive in events -/

theorem append_newline_inj :
    ∀ (u1 : List Char) (r1 : List Char) (u2 : List Char) (r2 : List Char),
      '\n' ∉ u1 → '\n' ∉ u2 →
      u1 ++ '\n' :: r1 = u2 ++ '\n' :: r2 → u1 = u2 ∧ r1 = r2 := by
  intro u1
  induction u1 with
  | nil =>
    intro r1 u2 r2 _ h2 heq
    cases u2 with
    | nil =>
      simp at heq
      exact ⟨rfl, heq⟩
    | cons y u2' =>
      simp at heq
      exact absurd (heq.1 ▸ List.mem_cons_self y u2') (heq.1 ▸ h2)
  | cons x u1' ih =>
    intro r1 u2 r2 h1 h2 heq
    cases u2 with
    | nil =>
      simp at heq
      exact absurd (heq.1 ▸ List.mem_cons_self x u1') (heq.1 ▸ h1)
    | cons y u2' =>
      simp only [List.cons_append, List.cons.injEq] at heq
      rcases heq with ⟨hxy, heq⟩
      have hnot1 : '\n' ∉ u1' := fun h => h1 (List.mem_cons_of_mem x h)
      have hnot2 : '\n' ∉ u2' := fun h => h2 (List.mem_cons_of_mem y h)
      rcases ih r1 u2' r2 hnot1 hnot2 heq with ⟨hu, hr⟩
      exact ⟨by rw [hxy, hu], hr⟩

theorem timingStr_no_newline (t : TriggerTiming) : '\n' ∉ (timingStr t).data := by
  cases t <;> decide

theorem eventStr_no_newline (e : TriggerEvent) : '\n' ∉ (eventStr e).data := by
  cases e <;> decide

theorem joinEvents_no_newline : ∀ es : List TriggerEvent, '\n' ∉ (joinEvents es).data := by
  intro es
  induction es with
  | nil => decide
  | cons e rest ih =>
    cases rest with
    | nil =>
      show '\n' ∉ (eventStr e).data
      exact eventStr_no_newline e
    | cons f rest' =>
      show '\n' ∉ (eventStr e ++ "," ++ joinStrings "," ((f :: rest').map eventStr)).data
      simp only [String.data_append, List.mem_append]
      rintro ((h | h) | h)
      · exact eventStr_no_newline e h
      · simp at h
      · exact ih h

theorem timingStr_inj {t1 t2 : TriggerTiming} (h : timingStr t1 = timingStr t2) : t1 = t2 := by
  cases t1 <;> cases t2 <;> first | rfl | (exact absurd h (by decide))

/-- The trigger comparison string determines exactly the triple
(timing, joined events, definition). -/
theorem triggerValue_eq_iff (ta tb : Trigger) :
    triggerValue ta = triggerValue tb ↔
      (ta.timing = tb.timing ∧ joinEvents ta.events = joinEvents tb.events ∧
        ta.definition = tb.definition) := by
  constructor
  · intro h
    have hdata : (timingStr ta.timing).data ++ '\n' ::
        ((joinEvents ta.events).data ++ '\n' :: ta.definition.data) =
        (timingStr tb.timing).data ++ '\n' ::
        ((joinEvents tb.events).data ++ '\n' :: tb.definition.data) := by
      have h2 : (triggerValue ta).data = (triggerValue tb).data := congrArg String.data h
      have hshape : ∀ t : Trigger, (triggerValue t).data =
          (timingStr t.timing).data ++ '\n' ::
          ((joinEvents t.events).data ++ '\n' :: t.definition.data) := by
        intro t
        show (timingStr t.timing ++ "\n" ++ (joinEvents t.events ++ "\n" ++ t.definition)).data = _
        simp [String.data_append]
      rw [hshape, hshape] at h2
      exact h2
    rcases append_newline_inj _ _ _ _ (timingStr_no_newline _) (timingStr_no_newline _)
      hdata with ⟨htiming, hrest⟩
    rcases append_newline_inj _ _ _ _ (joinEvents_no_newline _) (joinEvents_no_newline _)
      hrest with ⟨hevents, hdef⟩
    exact ⟨timingStr_inj (String.ext htiming), String.ext hevents, String.ext hdef⟩
  · rintro ⟨h1, h2, h3⟩
    show joinStrings "\n" [timingStr ta.timing, joinEvents ta.events, ta.definition] = _
    rw [h1, h2, h3]
    rfl

/-- Membership in the `changed` bucket of `diffCollection`. -/
theorem mem_diffCollection_changed {T : Type} (source target : List T)
    (keyFn valueFn : T → String) (e : ChangeEnvelope DefinitionChange) :
    e ∈ (diffCollection source target keyFn valueFn).changed ↔
      ∃ p ∈ buildMap keyFn source, ∃ tv,
        mapGet (buildMap keyFn target) p.1 = some tv ∧
        valueFn p.2 ≠ valueFn tv ∧
        e = ⟨p.1, ⟨valueFn p.2, valueFn tv⟩⟩ := by
  unfold diffCollection
  dsimp only
  rw [mem_sortBy]
  constructor
  · intro h
    rcases List.mem_filterMap.mp h with ⟨p, hp, hfp⟩
    cases hmg : mapGet (buildMap keyFn target) p.1 with
    | none => rw [hmg] at hfp; simp at hfp
    | some tv =>
      rw [hmg] at hfp
      dsimp only at hfp
      by_cases hne : valueFn p.2 ≠ valueFn tv
      · rw [if_pos hne] at hfp
        injection hfp with h2
        exact ⟨p, hp, tv, hmg, hne, h2.symm⟩
      · rw [if_neg hne] at hfp
        simp at hfp
  · rintro ⟨p, hp, tv, hmg, hne, he⟩
    refine List.mem_filterMap.mpr ⟨p, hp, ?_⟩
    rw [hmg]
    dsimp only
    rw [if_pos hne, he]

/-- C10: two triggers present on both sides under the same `(table, name)`
key are reported as changed exactly when their timing, their event lists
joined in stored order, or their definitions differ — so the comparison is
order-sensitive in the events even though the loader deduplicates them as a
set. -/
theorem C10_trigger_change_order_sensitive (a b : SchemaModel) (k : String)
    (ta tb : Trigger)
    (ha : a.triggers.filter (fun t => triggerKey t = k) = [ta])
    (hb : b.triggers.filter (fun t => triggerKey t = k) = [tb]) :
    (∃ e ∈ (computeDiff a b).triggers.changed, e.name = k) ↔
      (ta.timing ≠ tb.timing ∨ joinEvents ta.events ≠ joinEvents tb.events ∨
        ta.definition ≠ tb.definition) := by
  have hga : mapGet (buildMap triggerKey a.triggers) k = some ta := by
    rw [mapGet_buildMap, ha]
    rfl
  have hgb : mapGet (buildMap triggerKey b.triggers) k = some tb := by
    rw [mapGet_buildMap, hb]
    rfl
  have hproj : (computeDiff a b).triggers =
      diffCollection a.triggers b.triggers triggerKey triggerValue := rfl
  constructor
  · rintro ⟨e, he, hek⟩
    rw [hproj, mem_diffCollection_changed] at he
    rcases he with ⟨p, hp, tv, hmg, hne, hee⟩
    have hpk : p.1 = k := by
      rw [hee] at hek
      exact hek
    have hpa : p.2 = ta := by
      have hget := mapGet_of_mem_nodup (buildMap_keys_nodup triggerKey a.triggers) hp
      rw [hpk, hga] at hget
      simpa using hget.symm
    have htv : tv = tb := by
      rw [hpk, hgb] at hmg
      exact (Option.some.inj hmg).symm
    rw [hpa, htv] at hne
    by_contra hcon
    push_neg at hcon
    exact hne ((triggerValue_eq_iff ta tb).mpr ⟨hcon.1, hcon.2.1, hcon.2.2⟩)
  · intro hdiff
    have hne : triggerValue ta ≠ triggerValue tb := by
      intro heq
      rcases (triggerValue_eq_iff ta tb).mp heq with ⟨h1, h2, h3⟩
      rcases hdiff with h | h | h
      · exact h h1
      · exact h h2
      · exact h h3
    refine ⟨⟨k, ⟨triggerValue ta, triggerValue tb⟩⟩, ?_, rfl⟩
    rw [hproj, mem_diffCollection_changed]
    rcases mapGet_some_mem hga with ⟨p, hp, hpk, hpv⟩
    refine ⟨p, hp, tb, ?_, ?_, ?_⟩
    · rw [hpk]
      exact hgb
    · rw [hpv]
      exact hne
    · rw [hpk, hpv]

theorem C10_witness :
    (c10a.triggers.filter (fun t => triggerKey t = "t.trg") =
      [{ name := "trg", table := "t", timing := .before,
         events := [.insert, .update], definition := "BODY" }]) ∧
    (c10b.triggers.filter (fun t => triggerKey t = "t.trg") =
      [{ name := "trg", table := "t", timing := .before,
         events := [.update, .insert], definition := "BODY" }]) ∧
    (∃ e ∈ (computeDiff c10a c10b).triggers.changed, e.name = "t.trg") :=
  ⟨by decide, by decide,
    (C10_trigger_change_order_sensitive c10a c10b "t.trg"
        { name := "trg", table := "t", timing := .before,
          events := [.insert, .update], definition := "BODY" }
        { name := "trg", table := "t", timing := .before,
          events := [.update, .insert], definition := "BODY" }
        (by decide) (by decide)).mpr
      (Or.inr (Or.inl (by decide)))⟩

/-! ## Claim C1 — the generators invert the diff per direction -/

/-- C1: with direction `AtoB` the tables to drop are exactly
`diff.tables.added` and the tables to create are exactly
`diff.tables.removed` (with `BtoA` mirrored); each planned drop is emitted
as a `DROP TABLE` statement (safe-mode commented when enabled) and each
planned create as a `CREATE TABLE` statement by both generators; the
column and index lists of changed tables follow the same inversion in
`buildTablePlan`. -/
theorem C1_generators_invert (diff : DiffResult) (opts : GenOptions) :
    ((planTables diff opts).toDrop =
      (if opts.direction = .AtoB then diff.tables.added else diff.tables.removed)) ∧
    ((planTables diff opts).toCreate =
      (if opts.direction = .AtoB then diff.tables.removed else diff.tables.added)) ∧
    (∀ t ∈ (planTables diff opts).toDrop,
      safeLine opts (pgDropTableStmt opts t) ∈ toPostgresLines diff opts ∧
      safeLine opts (mariaDropTableStmt opts t) ∈ toMariaDBLines diff opts) ∧
    (∀ t ∈ (planTables diff opts).toCreate,
      renderPostgresCreateTable t ∈ toPostgresLines diff opts ∧
      renderMariaCreateTable t ∈ toMariaDBLines diff opts) ∧
    (∀ c : TableChange,
      (buildTablePlan c opts.direction).dropColumns =
        (if opts.direction = .AtoB then c.addedColumns else c.removedColumns) ∧
      (buildTablePlan c opts.direction).addColumns =
        (if opts.direction = .AtoB then c.removedColumns else c.addedColumns) ∧
      (buildTablePlan c opts.direction).dropIndexes =
        (if opts.direction = .AtoB then c.addedIndexes else c.removedIndexes) ∧
      (buildTablePlan c opts.direction).createIndexes =
        (if opts.direction = .AtoB then c.removedIndexes else c.addedIndexes)) := by
  refine ⟨rfl, rfl, ?_, ?_, fun c => ⟨rfl, rfl, rfl, rfl⟩⟩
  · intro t ht
    constructor
    · unfold toPostgresLines
      dsimp only
      simp only [List.mem_append]
      exact Or.inl (Or.inl (Or.inl (Or.inl (Or.inl (Or.inl
        (Or.inr (List.mem_map_of_mem _ ht)))))))
    · unfold toMariaDBLines
      dsimp only
      simp only [List.mem_append]
      exact Or.inl (Or.inl (Or.inl (Or.inl (Or.inl (Or.inl
        (Or.inr (List.mem_map_of_mem _ ht)))))))
  · intro t ht
    constructor
    · unfold toPostgresLines
      dsimp only
      simp only [List.mem_append]
      exact Or.inl (Or.inl (Or.inl (Or.inl (Or.inl
        (Or.inr (List.mem_map_of_mem _ ht))))))
    · unfold toMariaDBLines
      dsimp only
      simp only [List.mem_append]
      exact Or.inl (Or.inl (Or.inl (Or.inl (Or.inl
        (Or.inr (List.mem_map_of_mem _ ht))))))

theorem C1_witness :
    ({ name := "zeta", columns := [] } : Table) ∈ (planTables (computeDiff c5Empty c5Target) c1Opts).toDrop ∧
      safeLine c1Opts (pgDropTableStmt c1Opts { name := "zeta", columns := [] }) ∈
        toPostgresLines (computeDiff c5Empty c5Target) c1Opts :=
  ⟨by decide,
    ((C1_generators_invert (computeDiff c5Empty c5Target) c1Opts).2.2.1
      { name := "zeta", columns := [] } (by decide)).1⟩

/-! ## Claim C2 — safe mode comments out drops -/

theorem no_drop_prefix {c : Char} (rest : List Char) (hc : ('D' == c) = false) :
    "DROP ".data.isPrefixOf (c :: rest) = false := by
  show ('D' == c && List.isPrefixOf "ROP ".data rest) = false
  rw [hc, Bool.false_and]

theorem safeLine_eq_comment (opts : GenOptions) (hsafe : opts.safeMode = true) (x : String) :
    safeLine opts x = "-- " ++ x := by
  simp [safeLine, hsafe]

theorem safeLine_no_drop (opts : GenOptions) (hsafe : opts.safeMode = true) (x : String) :
    "DROP ".data.isPrefixOf (safeLine opts x).data = false := by
  rw [safeLine_eq_comment opts hsafe]
  exact no_drop_prefix _ rfl

/-- Under safe mode, no statement pushed by `toPostgres` starts with
`DROP ` — provided no created routine or trigger body does (their
definitions are emitted verbatim). -/
theorem toPostgresLines_no_drop (diff : DiffResult) (opts : GenOptions)
    (hsafe : opts.safeMode = true)
    (hr : ∀ r ∈ diff.routines.removed ++ diff.routines.added,
      "DROP ".data.isPrefixOf (jsTrim r.definition).data = false)
    (ht : ∀ t ∈ diff.triggers.removed ++ diff.triggers.added,
      "DROP ".data.isPrefixOf (jsTrim t.definition).data = false) :
    ∀ s ∈ toPostgresLines diff opts, "DROP ".data.isPrefixOf s.data = false := by
  intro s hs
  unfold toPostgresLines at hs
  dsimp only at hs
  simp only [List.mem_append] at hs
  rcases hs with ((((((((h | h) | h) | h) | h) | h) | h) | h) | h)
  · split at h
    · rw [List.mem_singleton.mp h]; decide
    · cases h
  · split at h
    · rw [List.mem_singleton.mp h]; decide
    · cases h
  · obtain ⟨t, _, rfl⟩ := List.mem_map.mp h
    exact safeLine_no_drop opts hsafe _
  · obtain ⟨t, _, rfl⟩ := List.mem_map.mp h
    exact no_drop_prefix _ rfl
  · obtain ⟨plan, _, hp⟩ := List.mem_flatMap.mp h
    unfold pgPlanLines at hp
    dsimp only at hp
    simp only [List.mem_append] at hp
    rcases hp with (((hp | hp) | hp) | hp) | hp
    · obtain ⟨c, _, rfl⟩ := List.mem_map.mp hp
      exact safeLine_no_drop opts hsafe _
    · obtain ⟨c, _, rfl⟩ := List.mem_map.mp hp
      exact no_drop_prefix _ rfl
    · obtain ⟨alt, _, hq⟩ := List.mem_flatMap.mp hp
      obtain ⟨ddl, _, rfl⟩ := List.mem_map.mp hq
      exact no_drop_prefix _ rfl
    · obtain ⟨i, _, rfl⟩ := List.mem_map.mp hp
      exact safeLine_no_drop opts hsafe _
    · obtain ⟨i, _, rfl⟩ := List.mem_map.mp hp
      exact no_drop_prefix _ rfl
  · unfold renderViewLines at h
    dsimp only at h
    simp only [List.mem_append] at h
    rcases h with (h | h) | h
    · obtain ⟨v, _, rfl⟩ := List.mem_map.mp h
      exact safeLine_no_drop opts hsafe _
    · obtain ⟨v, _, rfl⟩ := List.mem_map.mp h
      exact no_drop_prefix _ rfl
    · obtain ⟨ch, _, rfl⟩ := List.mem_map.mp h
      exact no_drop_prefix _ rfl
  · unfold renderRoutineLines at h
    dsimp only at h
    simp only [List.mem_append] at h
    rcases h with (h | h) | h
    · obtain ⟨r, _, rfl⟩ := List.mem_map.mp h
      exact safeLine_no_drop opts hsafe _
    · obtain ⟨r, hrmem, hs2⟩ := List.mem_flatMap.mp h
      have hrm : r ∈ diff.routines.removed ++ diff.routines.added := by
        split at hrmem
        · exact List.mem_append_left _ hrmem
        · exact List.mem_append_right _ hrmem
      simp only [List.mem_cons, List.not_mem_nil, or_false] at hs2
      rcases hs2 with rfl | rfl
      · exact no_drop_prefix _ rfl
      · exact hr r hrm
    · obtain ⟨ch, _, rfl⟩ := List.mem_map.mp h
      exact no_drop_prefix _ rfl
  · unfold renderTriggerLines at h
    dsimp only at h
    simp only [List.mem_append] at h
    rcases h with (h | h) | h
    · obtain ⟨t, _, rfl⟩ := List.mem_map.mp h
      exact safeLine_no_drop opts hsafe _
    · obtain ⟨t, htmem, hs2⟩ := List.mem_flatMap.mp h
      have htm : t ∈ diff.triggers.removed ++ diff.triggers.added := by
        split at htmem
        · exact List.mem_append_left _ htmem
        · exact List.mem_append_right _ htmem
      simp only [List.mem_cons, List.not_mem_nil, or_false] at hs2
      rcases hs2 with rfl | rfl
      · exact no_drop_prefix _ rfl
      · exact ht t htm
    · obtain ⟨ch, _, rfl⟩ := List.mem_map.mp h
      exact no_drop_prefix _ rfl
  · split at h
    · rw [List.mem_singleton.mp h]; decide
    · cases h

/-- The MariaDB counterpart of `toPostgresLines_no_drop`. -/
theorem toMariaDBLines_no_drop (diff : DiffResult) (opts : GenOptions)
    (hsafe : opts.safeMode = true)
    (hr : ∀ r ∈ diff.routines.removed ++ diff.routines.added,
      "DROP ".data.isPrefixOf (jsTrim r.definition).data = false)
    (ht : ∀ t ∈ diff.triggers.removed ++ diff.triggers.added,
      "DROP ".data.isPrefixOf (jsTrim t.definition).data = false) :
    ∀ s ∈ toMariaDBLines diff opts, "DROP ".data.isPrefixOf s.data = false := by
  intro s hs
  unfold toMariaDBLines at hs
  dsimp only at hs
  simp only [List.mem_append] at hs
  rcases hs with ((((((((h | h) | h) | h) | h) | h) | h) | h) | h)
  · split at h
    · rw [List.mem_singleton.mp h]; decide
    · cases h
  · split at h
    · rw [List.mem_singleton.mp h]; decide
    · cases h
  · obtain ⟨t, _, rfl⟩ := List.mem_map.mp h
    exact safeLine_no_drop opts hsafe _
  · obtain ⟨t, _, rfl⟩ := List.mem_map.mp h
    exact no_drop_prefix _ rfl
  · obtain ⟨plan, _, hp⟩ := List.mem_flatMap.mp h
    unfold mariaPlanLines at hp
    dsimp only at hp
    simp only [List.mem_append] at hp
    rcases hp with (((hp | hp) | hp) | hp) | hp
    · obtain ⟨c, _, rfl⟩ := List.mem_map.mp hp
      exact safeLine_no_drop opts hsafe _
    · obtain ⟨c, _, rfl⟩ := List.mem_map.mp hp
      exact no_drop_prefix _ rfl
    · obtain ⟨alt, _, hq⟩ := List.mem_flatMap.mp hp
      obtain ⟨ddl, _, rfl⟩ := List.mem_map.mp hq
      exact no_drop_prefix _ rfl
    · obtain ⟨i, _, rfl⟩ := List.mem_map.mp hp
      exact safeLine_no_drop opts hsafe _
    · obtain ⟨i, _, rfl⟩ := List.mem_map.mp hp
      exact no_drop_prefix _ rfl
  · unfold renderViewLines at h
    dsimp only at h
    simp only [List.mem_append] at h
    rcases h with (h | h) | h
    · obtain ⟨v, _, rfl⟩ := List.mem_map.mp h
      exact safeLine_no_drop opts hsafe _
    · obtain ⟨v, _, rfl⟩ := List.mem_map.mp h
      exact no_drop_prefix _ rfl
    · obtain ⟨ch, _, rfl⟩ := List.mem_map.mp h
      exact no_drop_prefix _ rfl
  · unfold renderRoutineLines at h
    dsimp only at h
    simp only [List.mem_append] at h
    rcases h with (h | h) | h
    · obtain ⟨r, _, rfl⟩ := List.mem_map.mp h
      exact safeLine_no_drop opts hsafe _
    · obtain ⟨r, hrmem, hs2⟩ := List.mem_flatMap.mp h
      have hrm : r ∈ diff.routines.removed ++ diff.routines.added := by
        split at hrmem
        · exact List.mem_append_left _ hrmem
        · exact List.mem_append_right _ hrmem
      simp only [List.mem_cons, List.not_mem_nil, or_false] at hs2
      rcases hs2 with rfl | rfl
      · exact no_drop_prefix _ rfl
      · exact hr r hrm
    · obtain ⟨ch, _, rfl⟩ := List.mem_map.mp h
      exact no_drop_prefix _ rfl
  · unfold renderTriggerLines at h
    dsimp only at h
    simp only [List.mem_append] at h
    rcases h with (h | h) | h
    · obtain ⟨t, _, rfl⟩ := List.mem_map.mp h
      exact safeLine_no_drop opts hsafe _
    · obtain ⟨t, htmem, hs2⟩ := List.mem_flatMap.mp h
      have htm : t ∈ diff.triggers.removed ++ diff.triggers.added := by
        split at htmem
        · exact List.mem_append_left _ htmem
        · exact List.mem_append_right _ htmem
      simp only [List.mem_cons, List.not_mem_nil, or_false] at hs2
      rcases hs2 with rfl | rfl
      · exact no_drop_prefix _ rfl
      · exact ht t htm
    · obtain ⟨ch, _, rfl⟩ := List.mem_map.mp h
      exact no_drop_prefix _ rfl
  · split at h
    · rw [List.mem_singleton.mp h]; decide
    · cases h

/-- C2 counterexample: with `safeMode=true` and direction `AtoB`, a routine
present only in model A is re-created by emitting its stored definition
verbatim; a definition that itself starts with `DROP ` therefore appears
as an uncommented `DROP` line in the script. -/
theorem C2_counterexample :
    c2Opts.safeMode = true ∧
    ∃ s ∈ toPostgresLines (computeDiff c2A c5Empty) c2Opts,
      "DROP ".data.isPrefixOf s.data = true ∧ "-- ".data.isPrefixOf s.data = false := by
  refine ⟨rfl, "DROP TABLE x;", by decide, by decide, by decide⟩

/-- C2 (amended): with `safeMode=true`, no statement emitted by either
generator starts with `DROP ` — every generated drop is prefixed with
`-- ` — provided no routine or trigger definition carried over from the
diff itself starts (after trimming) with `DROP `; in particular every
planned table drop appears in commented form. -/
theorem C2_safe_mode_drops_commented (diff : DiffResult) (opts : GenOptions)
    (hsafe : opts.safeMode = true)
    (hr : ∀ r ∈ diff.routines.removed ++ diff.routines.added,
      "DROP ".data.isPrefixOf (jsTrim r.definition).data = false)
    (ht : ∀ t ∈ diff.triggers.removed ++ diff.triggers.added,
      "DROP ".data.isPrefixOf (jsTrim t.definition).data = false) :
    (∀ s ∈ toPostgresLines diff opts, "DROP ".data.isPrefixOf s.data = false) ∧
    (∀ s ∈ toMariaDBLines diff opts, "DROP ".data.isPrefixOf s.data = false) ∧
    (∀ t ∈ (planTables diff opts).toDrop,
      ("-- " ++ pgDropTableStmt opts t) ∈ toPostgresLines diff opts ∧
      ("-- " ++ mariaDropTableStmt opts t) ∈ toMariaDBLines diff opts) := by
  refine ⟨toPostgresLines_no_drop diff opts hsafe hr ht,
    toMariaDBLines_no_drop diff opts hsafe hr ht, ?_⟩
  intro t ht2
  constructor
  · unfold toPostgresLines
    dsimp only
    simp only [List.mem_append]
    refine Or.inl (Or.inl (Or.inl (Or.inl (Or.inl (Or.inl (Or.inr ?_))))))
    rw [← safeLine_eq_comment opts hsafe]
    exact List.mem_map_of_mem _ ht2
  · unfold toMariaDBLines
    dsimp only
    simp only [List.mem_append]
    refine Or.inl (Or.inl (Or.inl (Or.inl (Or.inl (Or.inl (Or.inr ?_))))))
    rw [← safeLine_eq_comment opts hsafe]
    exact List.mem_map_of_mem _ ht2

theorem C2_witness :
    (∀ s ∈ toPostgresLines (computeDiff c5Empty c5Target) c2Opts,
      "DROP ".data.isPrefixOf s.data = false) ∧
    ("-- " ++ pgDropTableStmt c2Opts { name := "zeta", columns := [] }) ∈
      toPostgresLines (computeDiff c5Empty c5Target) c2Opts :=
  ⟨(C2_safe_mode_drops_commented (computeDiff c5Empty c5Target) c2Opts rfl
      (by decide) (by decide)).1,
    ((C2_safe_mode_drops_commented (computeDiff c5Empty c5Target) c2Opts rfl
      (by decide) (by decide)).2.2 { name := "zeta", columns := [] } (by decide)).1⟩

/-! ## Claim C7 — the SAFE MODE banner -/

theorem cons_ne_banner (c : Char) (rest : List Char) (hc : (c == '-') = false) :
    (⟨c :: rest⟩ : String) ≠ SAFE_BANNER := by
  intro he
  have hd : c :: rest = SAFE_BANNER.data := congrArg String.data he
  rw [show SAFE_BANNER.data =
    '-' :: "- SAFE MODE: review drops below before executing.".data from rfl] at hd
  injection hd with h1 _
  exact absurd (h1 ▸ hc) (by decide)

theorem mk4_ne_banner (c : Char) (rest : List Char) (hc : (c == 'S') = false) :
    (⟨'-' :: '-' :: ' ' :: c :: rest⟩ : String) ≠ SAFE_BANNER := by
  intro he
  have hd : '-' :: '-' :: ' ' :: c :: rest = SAFE_BANNER.data := congrArg String.data he
  rw [show SAFE_BANNER.data =
    '-' :: '-' :: ' ' :: 'S' :: "AFE MODE: review drops below before executing.".data
    from rfl] at hd
  injection hd with _ hd
  injection hd with _ hd
  injection hd with _ hd
  injection hd with h4 _
  exact absurd (h4 ▸ hc) (by decide)

/-- If the banner occurs among the statements of `toPostgres`, the plan
had tables to drop (no other pushed statement can equal the banner,
provided no emitted routine or trigger body equals it verbatim). -/
theorem banner_mem_toPostgresLines (diff : DiffResult) (opts : GenOptions)
    (hsafe : opts.safeMode = true)
    (hr : ∀ r ∈ diff.routines.removed ++ diff.routines.added,
      jsTrim r.definition ≠ SAFE_BANNER)
    (ht : ∀ t ∈ diff.triggers.removed ++ diff.triggers.added,
      jsTrim t.definition ≠ SAFE_BANNER) :
    SAFE_BANNER ∈ toPostgresLines diff opts → (planTables diff opts).toDrop ≠ [] := by
  intro hs hdrop
  unfold toPostgresLines at hs
  dsimp only at hs
  simp only [List.mem_append] at hs
  rcases hs with ((((((((h | h) | h) | h) | h) | h) | h) | h) | h)
  · split at h
    · exact absurd (List.mem_singleton.mp h).symm (by decide)
    · cases h
  · split at h
    · rename_i hcond
      exact hcond.2 hdrop
    · cases h
  · obtain ⟨t, htm, _⟩ := List.mem_map.mp h
    rw [hdrop] at htm
    cases htm
  · obtain ⟨t, _, heq⟩ := List.mem_map.mp h
    exact cons_ne_banner _ _ (by decide) heq
  · obtain ⟨plan, _, hp⟩ := List.mem_flatMap.mp h
    unfold pgPlanLines at hp
    dsimp only at hp
    simp only [List.mem_append] at hp
    rcases hp with (((hp | hp) | hp) | hp) | hp
    · obtain ⟨c, _, heq⟩ := List.mem_map.mp hp
      rw [safeLine_eq_comment opts hsafe] at heq
      exact mk4_ne_banner _ _ (by decide) heq
    · obtain ⟨c, _, heq⟩ := List.mem_map.mp hp
      exact cons_ne_banner _ _ (by decide) heq
    · obtain ⟨alt, _, hq⟩ := List.mem_flatMap.mp hp
      obtain ⟨ddl, _, heq⟩ := List.mem_map.mp hq
      exact cons_ne_banner _ _ (by decide) heq
    · obtain ⟨i, _, heq⟩ := List.mem_map.mp hp
      rw [safeLine_eq_comment opts hsafe] at heq
      exact mk4_ne_banner _ _ (by decide) heq
    · obtain ⟨i, _, heq⟩ := List.mem_map.mp hp
      exact cons_ne_banner _ _ (by decide) heq
  · unfold renderViewLines at h
    dsimp only at h
    simp only [List.mem_append] at h
    rcases h with (h | h) | h
    · obtain ⟨v, _, heq⟩ := List.mem_map.mp h
      rw [safeLine_eq_comment opts hsafe] at heq
      exact mk4_ne_banner _ _ (by decide) heq
    · obtain ⟨v, _, heq⟩ := List.mem_map.mp h
      exact cons_ne_banner _ _ (by decide) heq
    · obtain ⟨ch, _, heq⟩ := List.mem_map.mp h
      exact mk4_ne_banner _ _ (by decide) heq
  · unfold renderRoutineLines at h
    dsimp only at h
    simp only [List.mem_append] at h
    rcases h with (h | h) | h
    · obtain ⟨r, _, heq⟩ := List.mem_map.mp h
      rw [safeLine_eq_comment opts hsafe] at heq
      exact mk4_ne_banner _ _ (by decide) heq
    · obtain ⟨r, hrmem, hs2⟩ := List.mem_flatMap.mp h
      have hrm : r ∈ diff.routines.removed ++ diff.routines.added := by
        split at hrmem
        · exact List.mem_append_left _ hrmem
        · exact List.mem_append_right _ hrmem
      simp only [List.mem_cons, List.not_mem_nil, or_false] at hs2
      rcases hs2 with hs2 | hs2
      · exact mk4_ne_banner _ _ (by decide) hs2.symm
      · exact hr r hrm hs2.symm
    · obtain ⟨ch, _, heq⟩ := List.mem_map.mp h
      exact mk4_ne_banner _ _ (by decide) heq
  · unfold renderTriggerLines at h
    dsimp only at h
    simp only [List.mem_append] at h
    rcases h with (h | h) | h
    · obtain ⟨t, _, heq⟩ := List.mem_map.mp h
      rw [safeLine_eq_comment opts hsafe] at heq
      exact mk4_ne_banner _ _ (by decide) heq
    · obtain ⟨t, htmem, hs2⟩ := List.mem_flatMap.mp h
      have htm : t ∈ diff.triggers.removed ++ diff.triggers.added := by
        split at htmem
        · exact List.mem_append_left _ htmem
        · exact List.mem_append_right _ htmem
      simp only [List.mem_cons, List.not_mem_nil, or_false] at hs2
      rcases hs2 with hs2 | hs2
      · exact mk4_ne_banner _ _ (by decide) hs2.symm
      · exact ht t htm hs2.symm
    · obtain ⟨ch, _, heq⟩ := List.mem_map.mp h
      exact mk4_ne_banner _ _ (by decide) heq
  · split at h
    · exact absurd (List.mem_singleton.mp h).symm (by decide)
    · cases h

/-- The MariaDB counterpart of `banner_mem_toPostgresLines`. -/
theorem banner_mem_toMariaDBLines (diff : DiffResult) (opts : GenOptions)
    (hsafe : opts.safeMode = true)
    (hr : ∀ r ∈ diff.routines.removed ++ diff.routines.added,
      jsTrim r.definition ≠ SAFE_BANNER)
    (ht : ∀ t ∈ diff.triggers.removed ++ diff.triggers.added,
      jsTrim t.definition ≠ SAFE_BANNER) :
    SAFE_BANNER ∈ toMariaDBLines diff opts → (planTables diff opts).toDrop ≠ [] := by
  intro hs hdrop
  unfold toMariaDBLines at hs
  dsimp only at hs
  simp only [List.mem_append] at hs
  rcases hs with ((((((((h | h) | h) | h) | h) | h) | h) | h) | h)
  · split at h
    · exact absurd (List.mem_singleton.mp h).symm (by decide)
    · cases h
  · split at h
    · rename_i hcond
      exact hcond.2 hdrop
    · cases h
  · obtain ⟨t, htm, _⟩ := List.mem_map.mp h
    rw [hdrop] at htm
    cases htm
  · obtain ⟨t, _, heq⟩ := List.mem_map.mp h
    exact cons_ne_banner _ _ (by decide) heq
  · obtain ⟨plan, _, hp⟩ := List.mem_flatMap.mp h
    unfold mariaPlanLines at hp
    dsimp only at hp
    simp only [List.mem_append] at hp
    rcases hp with (((hp | hp) | hp) | hp) | hp
    · obtain ⟨c, _, heq⟩ := List.mem_map.mp hp
      rw [safeLine_eq_comment opts hsafe] at heq
      exact mk4_ne_banner _ _ (by decide) heq
    · obtain ⟨c, _, heq⟩ := List.mem_map.mp hp
      exact cons_ne_banner _ _ (by decide) heq
    · obtain ⟨alt, _, hq⟩ := List.mem_flatMap.mp hp
      obtain ⟨ddl, _, heq⟩ := List.mem_map.mp hq
      exact cons_ne_banner _ _ (by decide) heq
    · obtain ⟨i, _, heq⟩ := List.mem_map.mp hp
      rw [safeLine_eq_comment opts hsafe] at heq
      exact mk4_ne_banner _ _ (by decide) heq
    · obtain ⟨i, _, heq⟩ := List.mem_map.mp hp
      exact cons_ne_banner _ _ (by decide) heq
  · unfold renderViewLines at h
    dsimp only at h
    simp only [List.mem_append] at h
    rcases h with (h | h) | h
    · obtain ⟨v, _, heq⟩ := List.mem_map.mp h
      rw [safeLine_eq_comment opts hsafe] at heq
      exact mk4_ne_banner _ _ (by decide) heq
    · obtain ⟨v, _, heq⟩ := List.mem_map.mp h
      exact cons_ne_banner _ _ (by decide) heq
    · obtain ⟨ch, _, heq⟩ := List.mem_map.mp h
      exact mk4_ne_banner _ _ (by decide) heq
  · unfold renderRoutineLines at h
    dsimp only at h
    simp only [List.mem_append] at h
    rcases h with (h | h) | h
    · obtain ⟨r, _, heq⟩ := List.mem_map.mp h
      rw [safeLine_eq_comment opts hsafe] at heq
      exact mk4_ne_banner _ _ (by decide) heq
    · obtain ⟨r, hrmem, hs2⟩ := List.mem_flatMap.mp h
      have hrm : r ∈ diff.routines.removed ++ diff.routines.added := by
        split at hrmem
        · exact List.mem_append_left _ hrmem
        · exact List.mem_append_right _ hrmem
      simp only [List.mem_cons, List.not_mem_nil, or_false] at hs2
      rcases hs2 with hs2 | hs2
      · exact mk4_ne_banner _ _ (by decide) hs2.symm
      · exact hr r hrm hs2.symm
    · obtain ⟨ch, _, heq⟩ := List.mem_map.mp h
      exact mk4_ne_banner _ _ (by decide) heq
  · unfold renderTriggerLines at h
    dsimp only at h
    simp only [List.mem_append] at h
    rcases h with (h | h) | h
    · obtain ⟨t, _, heq⟩ := List.mem_map.mp h
      rw [safeLine_eq_comment opts hsafe] at heq
      exact mk4_ne_banner _ _ (by decide) heq
    · obtain ⟨t, htmem, hs2⟩ := List.mem_flatMap.mp h
      have htm : t ∈ diff.triggers.removed ++ diff.triggers.added := by
        split at htmem
        · exact List.mem_append_left _ htmem
        · exact List.mem_append_right _ htmem
      simp only [List.mem_cons, List.not_mem_nil, or_false] at hs2
      rcases hs2 with hs2 | hs2
      · exact mk4_ne_banner _ _ (by decide) hs2.symm
      · exact ht t htm hs2.symm
    · obtain ⟨ch, _, heq⟩ := List.mem_map.mp h
      exact mk4_ne_banner _ _ (by decide) heq
  · split at h
    · exact absurd (List.mem_singleton.mp h).symm (by decide)
    · cases h

/-- C7 counterexample: with `safeMode=true` a view-only drop produces a
drop statement in the script but no `-- SAFE MODE:` banner — the banner
is gated on table drops only (`plan.toDrop.length > 0`). -/
theorem C7_counterexample :
    c2Opts.safeMode = true ∧
    ("-- DROP VIEW \"v\";") ∈ toPostgresLines (computeDiff c5Empty c7B) c2Opts ∧
    SAFE_BANNER ∉ toPostgresLines (computeDiff c5Empty c7B) c2Opts := by
  refine ⟨rfl, by decide, by decide⟩

/-- C7 (amended): with `safeMode=true` the `-- SAFE MODE:` banner appears
in the emitted statements of either generator precisely when the plan
contains tables to drop — not when the only drops are views, routines,
triggers, columns or indexes — provided no emitted routine or trigger
body equals the banner text verbatim. -/
theorem C7_banner_iff_table_drops (diff : DiffResult) (opts : GenOptions)
    (hsafe : opts.safeMode = true)
    (hr : ∀ r ∈ diff.routines.removed ++ diff.routines.added,
      jsTrim r.definition ≠ SAFE_BANNER)
    (ht : ∀ t ∈ diff.triggers.removed ++ diff.triggers.added,
      jsTrim t.definition ≠ SAFE_BANNER) :
    (SAFE_BANNER ∈ toPostgresLines diff opts ↔ (planTables diff opts).toDrop ≠ []) ∧
    (SAFE_BANNER ∈ toMariaDBLines diff opts ↔ (planTables diff opts).toDrop ≠ []) := by
  constructor
  · constructor
    · exact banner_mem_toPostgresLines diff opts hsafe hr ht
    · intro hne
      unfold toPostgresLines
      dsimp only
      simp only [List.mem_append]
      refine Or.inl (Or.inl (Or.inl (Or.inl (Or.inl (Or.inl (Or.inl (Or.inr ?_)))))))
      rw [if_pos ⟨hsafe, hne⟩]
      exact List.mem_singleton.mpr rfl
  · constructor
    · exact banner_mem_toMariaDBLines diff opts hsafe hr ht
    · intro hne
      unfold toMariaDBLines
      dsimp only
      simp only [List.mem_append]
      refine Or.inl (Or.inl (Or.inl (Or.inl (Or.inl (Or.inl (Or.inl (Or.inr ?_)))))))
      rw [if_pos ⟨hsafe, hne⟩]
      exact List.mem_singleton.mpr rfl

theorem C7_witness :
    SAFE_BANNER ∈ toPostgresLines (computeDiff c5Empty c5Target) c2Opts :=
  ((C7_banner_iff_table_drops (computeDiff c5Empty c5Target) c2Opts rfl
      (by decide) (by decide)).1).mpr (by decide)

/-! ## Claim C8 — index parsing in the PostgreSQL loader -/

theorem splitOnChar_ne_nil (c : Char) (l : List Char) : splitOnChar c l ≠ [] := by
  induction l with
  | nil => simp [splitOnChar]
  | cons x rest ih =>
    unfold splitOnChar
    split
    · simp
    · cases h : splitOnChar c rest with
      | nil => simp
      | cons a t => simp

theorem splitOnChar_append (c : Char) (x y : List Char) :
    splitOnChar c (x ++ c :: y) = splitOnChar c x ++ splitOnChar c y := by
  induction x with
  | nil => simp [splitOnChar]
  | cons a x ih =>
    by_cases hac : a = c
    · subst hac
      simp [splitOnChar, ih]
    · obtain ⟨h, t, hx⟩ : ∃ h t, splitOnChar c x = h :: t := by
        cases hsp : splitOnChar c x with
        | nil => exact absurd hsp (splitOnChar_ne_nil c x)
        | cons h t => exact ⟨h, t, rfl⟩
      simp [splitOnChar, hac, ih, hx]

theorem splitOnChar_no_sep (c : Char) (l : List Char) (h : ∀ a ∈ l, a ≠ c) :
    splitOnChar c l = [l] := by
  induction l with
  | nil => rfl
  | cons a rest ih =>
    have ha : a ≠ c := h a (List.mem_cons_self a rest)
    simp [splitOnChar, ha, ih (fun b hb => h b (List.mem_cons_of_mem a hb))]

theorem containsSub_nil_needle (l : List Char) : containsSub l [] = true := by
  cases l <;> rfl

theorem isPrefixOf_append_self : ∀ (n t : List Char), n.isPrefixOf (n ++ t) = true := by
  intro n
  induction n with
  | nil => intro t; cases t <;> rfl
  | cons a n ih =>
    intro t
    show (a == a && n.isPrefixOf (n ++ t)) = true
    rw [ih t, beq_self_eq_true, Bool.and_true]

theorem isPrefixOf_exists : ∀ {n l : List Char}, n.isPrefixOf l = true → ∃ t, n ++ t = l := by
  intro n
  induction n with
  | nil => intro l _; exact ⟨l, rfl⟩
  | cons a n ih =>
    intro l h
    cases l with
    | nil => cases h
    | cons b l =>
      have h' : (a == b && n.isPrefixOf l) = true := h
      rw [Bool.and_eq_true] at h'
      obtain ⟨h1, h2⟩ := h'
      obtain ⟨t, ht⟩ := ih h2
      exact ⟨t, by rw [eq_of_beq h1]; rw [show (b::n) ++ t = b :: (n ++ t) from rfl, ht]⟩

theorem containsSub_of_prefix_append (n t : List Char) : containsSub (n ++ t) n = true := by
  cases n with
  | nil => exact containsSub_nil_needle t
  | cons a n' =>
    show ((a::n').isPrefixOf (a :: (n' ++ t)) || containsSub (n' ++ t) (a::n')) = true
    rw [show (a::n').isPrefixOf (a :: (n' ++ t)) = true from isPrefixOf_append_self (a::n') t]
    rfl

theorem containsSub_append_right (a b n : List Char) (h : containsSub b n = true) :
    containsSub (a ++ b) n = true := by
  induction a with
  | nil => exact h
  | cons x a ih =>
    show (n.isPrefixOf (x :: (a ++ b)) || containsSub (a ++ b) n) = true
    rw [ih, Bool.or_true]

theorem containsSub_iff (hay need : List Char) :
    containsSub hay need = true ↔ ∃ pre suf, hay = pre ++ need ++ suf := by
  induction hay with
  | nil =>
    constructor
    · intro h
      have hn : need = [] := by
        cases need with
        | nil => rfl
        | cons a t => cases h
      exact ⟨[], [], by simp [hn]⟩
    · rintro ⟨pre, suf, h⟩
      have h2 : pre ++ (need ++ suf) = [] := by rw [← List.append_assoc]; exact h.symm
      obtain ⟨_, h4⟩ := List.append_eq_nil.mp h2
      obtain ⟨h5, _⟩ := List.append_eq_nil.mp h4
      rw [h5]
      exact containsSub_nil_needle []
  | cons c rest ih =>
    constructor
    · intro h
      have h' : (need.isPrefixOf (c :: rest) || containsSub rest need) = true := h
      rw [Bool.or_eq_true] at h'
      rcases h' with h1 | h2
      · obtain ⟨t, ht⟩ := isPrefixOf_exists h1
        exact ⟨[], t, by rw [List.nil_append]; exact ht.symm⟩
      · obtain ⟨pre, suf, hx⟩ := ih.mp h2
        exact ⟨c :: pre, suf, by rw [hx]; rfl⟩
    · rintro ⟨pre, suf, hx⟩
      cases pre with
      | nil =>
        simp only [List.nil_append] at hx
        show (need.isPrefixOf (c :: rest) || containsSub rest need) = true
        rw [Bool.or_eq_true]
        refine Or.inl ?_
        show need.isPrefixOf (c :: rest) = true
        rw [hx]
        exact isPrefixOf_append_self need suf
      | cons p0 pre' =>
        injection hx with h1 h2
        show (need.isPrefixOf (c :: rest) || containsSub rest need) = true
        rw [Bool.or_eq_true]
        exact Or.inr (ih.mpr ⟨pre', suf, h2⟩)

theorem containsSub_false_of_not_mem {c0 : Char} {hay need : List Char}
    (hc : c0 ∈ need) (h : c0 ∉ hay) : containsSub hay need = false := by
  cases hb : containsSub hay need with
  | false => rfl
  | true =>
    exfalso
    obtain ⟨pre, suf, hx⟩ := (containsSub_iff hay need).mp hb
    exact h (by rw [hx]; exact List.mem_append.mpr (Or.inl (List.mem_append.mpr (Or.inr hc))))

theorem mem_joinStrings {ch : Char} (sep : String) (l : List String)
    (h : ch ∈ (joinStrings sep l).data) : (∃ x ∈ l, ch ∈ x.data) ∨ ch ∈ sep.data := by
  induction l with
  | nil => cases h
  | cons x xs ih =>
    cases xs with
    | nil => exact Or.inl ⟨x, List.mem_singleton.mpr rfl, h⟩
    | cons y ys =>
      have h2 : ch ∈ (x ++ sep ++ joinStrings sep (y::ys)).data := h
      rw [String.data_append, String.data_append] at h2
      rcases List.mem_append.mp h2 with h3 | h3
      · rcases List.mem_append.mp h3 with h4 | h4
        · exact Or.inl ⟨x, List.mem_cons_self _ _, h4⟩
        · exact Or.inr h4
      · rcases ih h3 with ⟨z, hz, hcz⟩ | hsep
        · exact Or.inl ⟨z, List.mem_cons_of_mem _ hz, hcz⟩
        · exact Or.inr hsep

theorem takeWhile_append_all (p : Char → Bool) (m : List Char) (x : Char) (r : List Char)
    (hm : ∀ a ∈ m, p a = true) (hx : p x = false) :
    (m ++ x :: r).takeWhile p = m := by
  induction m with
  | nil => simp [List.takeWhile_cons, hx]
  | cons a m ih =>
    have ha := hm a (List.mem_cons_self a m)
    simp [List.takeWhile_cons, ha, ih (fun b hb => hm b (List.mem_cons_of_mem a hb))]

theorem isWordChar_not_ws {c : Char} (h : isWordChar c = true) : c.isWhitespace = false := by
  cases hw : c.isWhitespace with
  | false => rfl
  | true =>
    exfalso
    unfold Char.isWhitespace at hw
    simp only [Bool.or_eq_true, decide_eq_true_eq] at hw
    rcases hw with ((rfl | rfl) | rfl) | rfl <;> exact absurd h (by decide)

theorem dropWhile_append_notWs (m x : List Char) (hm1 : m ≠ [])
    (hm2 : ∀ c ∈ m, isWordChar c = true) :
    (m ++ x).dropWhile Char.isWhitespace = m ++ x := by
  cases m with
  | nil => exact absurd rfl hm1
  | cons a m' =>
    rw [show (a::m') ++ x = a :: (m' ++ x) from rfl]
    rw [List.dropWhile_cons,
      if_neg (fun h => Bool.false_ne_true
        ((isWordChar_not_ws (hm2 a (List.mem_cons_self a m'))).symm.trans h))]

theorem trimChars_cons_space (l : List Char) : trimChars (' ' :: l) = trimChars l := by
  unfold trimChars
  rw [List.dropWhile_cons, if_pos (by decide)]

theorem matchUsingAt_usingBlock (m rest : List Char) (hm1 : m ≠ [])
    (hm2 : ∀ c ∈ m, isWordChar c = true) :
    matchUsingAt ('U' :: 'S' :: 'I' :: 'N' :: 'G' :: ' ' :: (m ++ ' ' :: rest)) = some m := by
  unfold matchUsingAt
  rw [if_pos (show (('U' :: 'S' :: 'I' :: 'N' :: 'G' :: ' ' :: (m ++ ' ' :: rest)).take 5).map Char.toLower
      = "using".data from by
    rw [show ('U' :: 'S' :: 'I' :: 'N' :: 'G' :: ' ' :: (m ++ ' ' :: rest)).take 5 = ['U','S','I','N','G']
      from rfl]
    decide)]
  rw [show ('U' :: 'S' :: 'I' :: 'N' :: 'G' :: ' ' :: (m ++ ' ' :: rest)).drop 5 = ' ' :: (m ++ ' ' :: rest)
    from rfl]
  dsimp only
  rw [if_pos (by decide : (' ').isWhitespace = true)]
  have h1 : (' ' :: (m ++ ' ' ::rest)).dropWhile Char.isWhitespace = m ++ ' ' ::rest := by
    rw [List.dropWhile_cons, if_pos (by decide)]
    exact dropWhile_append_notWs m (' ' ::rest) hm1 hm2
  have h2 : (m ++ ' ' ::rest).takeWhile isWordChar = m :=
    takeWhile_append_all isWordChar m ' ' rest hm2 (by decide)
  rw [h1, h2, if_neg hm1]

theorem findUsingWord_usingBlock (m rest : List Char) (hm1 : m ≠ [])
    (hm2 : ∀ c ∈ m, isWordChar c = true) :
    findUsingWord (' ' :: 'U' :: 'S' :: 'I' :: 'N' :: 'G' :: ' ' :: (m ++ ' ' :: rest)) = some m := by
  rw [findUsingWord]
  rw [show matchUsingAt (' ' :: 'U' :: 'S' :: 'I' :: 'N' :: 'G' :: ' ' :: (m ++ ' ' :: rest)) = none
    from by
      unfold matchUsingAt
      rw [if_neg (show ¬ ((' ' :: 'U' :: 'S' :: 'I' :: 'N' :: 'G' :: ' ' :: (m ++ ' ' :: rest)).take 5).map
          Char.toLower = "using".data from by
        rw [show (' ' :: 'U' :: 'S' :: 'I' :: 'N' :: 'G' :: ' ' :: (m ++ ' ' :: rest)).take 5
          = [' ','U','S','I','N'] from rfl]
        decide)]]
  dsimp only
  rw [findUsingWord]
  rw [matchUsingAt_usingBlock m rest hm1 hm2]

theorem findUsingWord_append (P Q : List Char)
    (hfail : ∀ p, p ≠ [] → List.IsSuffix p P → matchUsingAt (p ++ Q) = none) :
    findUsingWord (P ++ Q) = findUsingWord Q := by
  induction P with
  | nil => rfl
  | cons c P ih =>
    show findUsingWord (c :: (P ++ Q)) = findUsingWord Q
    rw [findUsingWord]
    rw [show matchUsingAt (c :: (P ++ Q)) = none from hfail (c::P) (by simp) ⟨[], rfl⟩]
    dsimp only
    exact ih (fun p hp hs => hfail p hp (hs.trans (List.suffix_cons c P)))

theorem parenContent_exact (P2 y : List Char) (hP2 : '(' ∉ P2) :
    parenContent (P2 ++ '(' :: (y ++ [')'])) = some y := by
  unfold parenContent
  dsimp only
  rw [takeWhile_append_all (fun c => c ≠ '(') P2 '(' (y ++ [')'])
    (fun a ha => decide_eq_true (fun he => hP2 (he ▸ ha))) (by decide)]
  rw [if_neg (by simp)]
  have hdrop : (P2 ++ '(' ::(y ++ [')'])).drop (P2.length + 1) = y ++ [')'] := by
    rw [show P2 ++ '(' ::(y ++ [')']) = (P2 ++ ['(']) ++ (y ++ [')']) from by simp]
    rw [show P2.length + 1 = (P2 ++ ['(']).length from by simp]
    exact List.drop_left _ _
  rw [hdrop]
  rw [show (y ++ [')']).reverse = ')' :: y.reverse from by simp]
  rw [show List.takeWhile (fun c => c ≠ ')') (')' :: y.reverse) = [] from by
    rw [List.takeWhile_cons]; simp]
  rw [if_neg (by simp)]
  simp

theorem splitOn_join (c0 : String) (cs : List String)
    (hc : ∀ col ∈ c0 :: cs, ',' ∉ col.data) :
    splitOnChar ',' (joinStrings ", " (c0 :: cs)).data =
      c0.data :: cs.map (fun c => ' ' :: c.data) := by
  induction cs generalizing c0 with
  | nil =>
    simp only [List.map_nil]
    exact splitOnChar_no_sep ',' c0.data
      (fun a ha he => hc c0 (List.mem_singleton.mpr rfl) (he ▸ ha))
  | cons c1 cs ih =>
    have hd : (joinStrings ", " (c0::c1::cs)).data
        = c0.data ++ ',' :: (' ' :: (joinStrings ", " (c1::cs)).data) := by
      show ((c0 ++ ", ") ++ joinStrings ", " (c1::cs)).data = _
      simp only [String.data_append, List.append_assoc]
      rfl
    rw [hd, splitOnChar_append]
    rw [splitOnChar_no_sep ',' c0.data
      (fun a ha he => hc c0 (List.mem_cons_self _ _) (he ▸ ha))]
    have hone : splitOnChar ',' (' ' :: (joinStrings ", " (c1::cs)).data)
        = (' ' :: c1.data) :: cs.map (fun c => ' ' :: c.data) := by
      rw [splitOnChar]
      rw [if_neg (by decide : ¬(' ' = ','))]
      rw [ih c1 (fun col hcol => hc col (List.mem_cons_of_mem c0 hcol))]
    rw [hone]
    rfl

/-- `findUsingWord` on a well-formed `indexdef`: the scan skips the whole
prefix (whose lowering contains no `using`) and captures the access-method
word after ` USING `. -/
theorem findUsingWord_prefix_block (PRE : String) (m rest2 : List Char)
    (hm1 : m ≠ []) (hm2 : ∀ c ∈ m, isWordChar c = true)
    (hpre : containsSub (PRE.data.map Char.toLower) "using".data = false) :
    findUsingWord (PRE.data ++ (' ' :: 'U' :: 'S' :: 'I' :: 'N' :: 'G' :: ' ' :: (m ++ ' ' :: rest2)))
      = some m := by
  have hfail : ∀ p, p ≠ [] → List.IsSuffix p PRE.data →
      matchUsingAt (p ++ (' ' :: 'U' :: 'S' :: 'I' :: 'N' :: 'G' :: ' ' :: (m ++ ' ' :: rest2))) = none := by
    intro p hp hs
    have hcond : ¬ (((p ++ (' ' :: 'U' :: 'S' :: 'I' :: 'N' :: 'G' :: ' ' :: (m ++ ' ' :: rest2))).take 5).map
        Char.toLower = "using".data) := by
      intro hw
      by_cases hlen : 5 ≤ p.length
      · rw [List.take_append_eq_append_take, show 5 - p.length = 0 from by omega,
          List.take_zero, List.append_nil] at hw
        obtain ⟨front, hfr⟩ := hs
        have hmem2 : containsSub (PRE.data.map Char.toLower) "using".data = true := by
          refine (containsSub_iff _ _).mpr
            ⟨front.map Char.toLower, (p.drop 5).map Char.toLower, ?_⟩
          rw [← hfr, List.map_append, List.append_assoc]
          congr 1
          rw [← hw, ← List.map_append, List.take_append_drop]
        exact Bool.false_ne_true (hpre.symm.trans hmem2)
      · have hsp : ' ' ∈ (p ++ (' ' :: 'U' :: 'S' :: 'I' :: 'N' :: 'G' :: ' ' :: (m ++ ' ' :: rest2))).take 5 := by
          rw [List.take_append_eq_append_take]
          refine List.mem_append.mpr (Or.inr ?_)
          obtain ⟨k, hk⟩ : ∃ k, 5 - p.length = k + 1 := ⟨4 - p.length, by omega⟩
          rw [hk, List.take_succ_cons]
          exact List.mem_cons_self _ _
        have hsu : ' ' ∈ "using".data := by
          rw [← hw]
          exact List.mem_map.mpr ⟨' ', hsp, by decide⟩
        exact absurd hsu (by decide)
    unfold matchUsingAt
    rw [if_neg hcond]
  rw [findUsingWord_append _ _ hfail]
  exact findUsingWord_usingBlock m rest2 hm1 hm2

/-- C8 counterexample: the `pg_indexes` loop pushes an index for *every*
row whose `tablename` matches — there is no primary-key filter — so the
index backing the primary key (here `users_pkey`) does appear in the
table's `indexes` collection, fully parsed. -/
theorem C8_counterexample :
    parseIndexRow c8PkRow ∈ indexesFor [c8PkRow] "users" ∧
    (parseIndexRow c8PkRow).name = "users_pkey" ∧
    (parseIndexRow c8PkRow).unique = true ∧
    (parseIndexRow c8PkRow).«using» = some "btree" ∧
    (parseIndexRow c8PkRow).columns = ["id"] := by
  refine ⟨by decide, by decide, by decide, by decide, by decide⟩

/-- C8 (amended): the loader does recover uniqueness, access method and
column list from a well-formed `indexdef` (columns trimmed and stripped of
double quotes), and *every* matching `pg_indexes` row — the primary key's
backing index included — contributes its parsed index to the collection.
The well-formedness hypotheses: the method is a nonempty word, no
case-insensitive `using` and no `(` occurs before the real ` USING `
clause, `UNIQUE` cannot occur as a substring unless emitted (no `Q`
characters in the identifier parts of a non-unique definition), and the
column list is nonempty with comma-free entries. -/
theorem C8_index_parsing (unique : Bool) (name tbl method : String) (cols : List String)
    (hm1 : method.data ≠ [])
    (hm2 : ∀ c ∈ method.data, isWordChar c = true)
    (hq : unique = false → 'Q' ∉ name.data ∧ 'Q' ∉ tbl.data ∧ 'Q' ∉ method.data ∧
      ∀ col ∈ cols, 'Q' ∉ col.data)
    (hpre : containsSub (jsToLower ("CREATE " ++ (if unique then "UNIQUE " else "") ++
      "INDEX " ++ name ++ " ON " ++ tbl)).data "using".data = false)
    (hpar : '(' ∉ name.data ∧ '(' ∉ tbl.data ∧ '(' ∉ method.data)
    (hcomma : ∀ col ∈ cols, ',' ∉ col.data)
    (hcne : cols ≠ []) :
    (∀ (tn : String) (rows : List PgIndexRow) (row : PgIndexRow), row ∈ rows →
      row.tablename = tn → parseIndexRow row ∈ indexesFor rows tn) ∧
    parseIndexRow
      { tablename := tbl, indexname := name, indexdef := mkIndexDef unique name tbl method cols }
      =
      { name := name, unique := unique,
        columns := cols.map
          (fun c => ((⟨(trimChars c.data).filter (fun x => x ≠ '"')⟩ : String)))
        «using» := some method } := by
  constructor
  · intro tn rows row hmem heq
    unfold indexesFor
    exact List.mem_map_of_mem _ (List.mem_filter.mpr ⟨hmem, decide_eq_true heq⟩)
  · cases cols with
    | nil => exact absurd rfl hcne
    | cons c0 cs =>
      have hD : (mkIndexDef unique name tbl method (c0::cs)).data =
          ("CREATE " ++ (if unique then "UNIQUE " else "") ++ "INDEX " ++ name ++ " ON "
            ++ tbl).data
            ++ (' ' :: 'U' :: 'S' :: 'I' :: 'N' :: 'G' :: ' ' ::
                (method.data ++ ' ' :: ('(' :: ((joinStrings ", " (c0::cs)).data ++ [')'])))) := by
        simp only [mkIndexDef, String.data_append, List.append_assoc]
        rfl
      have hD2 : (mkIndexDef unique name tbl method (c0::cs)).data =
          (("CREATE " ++ (if unique then "UNIQUE " else "") ++ "INDEX " ++ name ++ " ON "
            ++ tbl).data
            ++ (' ' :: 'U' :: 'S' :: 'I' :: 'N' :: 'G' :: ' ' :: (method.data ++ [' '])))
            ++ ('(' :: (((joinStrings ", " (c0::cs)).data) ++ [')'])) := by
        rw [hD]
        simp only [List.append_assoc, List.cons_append, List.nil_append]
      have hP2 : '(' ∉ (("CREATE " ++ (if unique then "UNIQUE " else "") ++ "INDEX " ++ name
          ++ " ON " ++ tbl).data
          ++ (' ' :: 'U' :: 'S' :: 'I' :: 'N' :: 'G' :: ' ' :: (method.data ++ [' ']))) := by
        intro hin
        have hite : ∀ (b : Bool), '(' ∉ ((if b then "UNIQUE " else "") : String).data := by
          intro b; cases b <;> decide
        rcases List.mem_append.mp hin with h1 | h2
        · simp only [String.data_append, List.mem_append] at h1
          rcases h1 with ((((h|h)|h)|h)|h)|h
          · exact absurd h (by decide)
          · exact hite unique h
          · exact absurd h (by decide)
          · exact hpar.1 h
          · exact absurd h (by decide)
          · exact hpar.2.1 h
        · simp only [List.mem_cons, List.mem_append, List.mem_singleton] at h2
          rcases h2 with h|h|h|h|h|h|h|h|h
          · exact absurd h (by decide)
          · exact absurd h (by decide)
          · exact absurd h (by decide)
          · exact absurd h (by decide)
          · exact absurd h (by decide)
          · exact absurd h (by decide)
          · exact absurd h (by decide)
          · exact hpar.2.2 h
          · exact absurd h (by decide)
      have hpc : parenContent (mkIndexDef unique name tbl method (c0::cs)).data
          = some ((joinStrings ", " (c0::cs)).data) := by
        rw [hD2]
        exact parenContent_exact _ _ hP2
      have husing : findUsingWord (mkIndexDef unique name tbl method (c0::cs)).data
          = some method.data := by
        rw [hD]
        exact findUsingWord_prefix_block _ _ _ hm1 hm2 hpre
      unfold parseIndexRow
      dsimp only
      rw [Index.mk.injEq]
      refine ⟨rfl, ?_, ?_, ?_⟩
      · by_cases hu : unique = true
        · subst hu
          have hsp : (mkIndexDef true name tbl method (c0::cs)).data
              = "CREATE ".data ++ ("UNIQUE".data ++ (' ' ::
                ("INDEX " ++ name ++ " ON " ++ tbl ++ " USING " ++ method ++ " ("
                  ++ joinStrings ", " (c0::cs) ++ ")").data)) := by
            simp only [mkIndexDef, String.data_append, List.append_assoc]
            rfl
          rw [hsp]
          exact containsSub_append_right _ _ _ (containsSub_of_prefix_append _ _)
        · have hu' : unique = false := eq_false_of_ne_true hu
          subst hu'
          obtain ⟨hqn, hqt, hqm, hqc⟩ := hq rfl
          refine containsSub_false_of_not_mem (show 'Q' ∈ "UNIQUE".data from by decide) ?_
          intro hin
          rw [hD] at hin
          rcases List.mem_append.mp hin with h1 | h2
          · simp only [String.data_append, List.mem_append] at h1
            rcases h1 with ((((h|h)|h)|h)|h)|h
            · exact absurd h (by decide)
            · exact absurd h (by decide)
            · exact absurd h (by decide)
            · exact hqn h
            · exact absurd h (by decide)
            · exact hqt h
          · simp only [List.mem_cons, List.mem_append, List.mem_singleton] at h2
            rcases h2 with h|h|h|h|h|h|h|h|h|h|h|h
            · exact absurd h (by decide)
            · exact absurd h (by decide)
            · exact absurd h (by decide)
            · exact absurd h (by decide)
            · exact absurd h (by decide)
            · exact absurd h (by decide)
            · exact absurd h (by decide)
            · exact hqm h
            · exact absurd h (by decide)
            · exact absurd h (by decide)
            · rcases mem_joinStrings ", " (c0::cs) h with ⟨x, hx, hcx⟩ | hsep
              · exact hqc x hx hcx
              · exact absurd hsep (by decide)
            · exact absurd h (by decide)
      · rw [hpc]
        dsimp only
        rw [splitOn_join c0 cs hcomma]
        simp only [List.map_cons, List.map_map]
        congr 1
      · rw [husing]
        rfl

theorem C8_witness :
    parseIndexRow
      { tablename := "users", indexname := "users_pkey",
        indexdef := mkIndexDef true "users_pkey" "users" "btree" ["\"id\"", " num"] }
      =
      { name := "users_pkey", unique := true,
        columns := ["id", "num"], «using» := some "btree" } ∧
    parseIndexRow c8PkRow ∈ indexesFor [c8PkRow] "users" := by
  have h := C8_index_parsing true "users_pkey" "users" "btree" ["\"id\"", " num"]
    (by decide) (by decide) (by decide) (by decide) (by decide) (by decide) (by decide)
  exact ⟨h.2.trans (by decide), h.1 "users" [c8PkRow] c8PkRow (by decide) (by decide)⟩

end SchemaSync
